import Mathlib

/-!
Verification of the genny static-site generator against its specification.

Text is modelled as `List Char` (the byte-for-byte content of Go strings)
and binary data as `List Nat` (bytes, each `< 256`).  Every definition in
the `Genny` namespace is a direct translation of a function of the Go
sources; definitions whose name ends in `Spec` restate a sentence of the
specification and are compared with the source translation.
-/

namespace Genny

/-- Whitespace test mirroring `unicode.IsSpace` on the characters that can
occur in the Latin-1 range (the Go function additionally accepts a few
higher Unicode space code points that never appear in the inputs of the
claims). -/
def isSpace (c : Char) : Bool :=
  c = ' ' || c = '\t' || c = '\n' || c = '\x0b' || c = '\x0c' || c = '\r'

/-- `strings.TrimSpace`: remove leading and trailing whitespace. -/
def trimSpace (s : List Char) : List Char :=
  ((s.dropWhile isSpace).reverse.dropWhile isSpace).reverse

/-- `strings.Split(s, "\n")`. -/
def splitOnNl : List Char → List (List Char)
  | [] => [[]]
  | c :: cs =>
    if c = '\n' then [] :: splitOnNl cs
    else
      match splitOnNl cs with
      | [] => [[c]]
      | l :: ls => (c :: l) :: ls

/-- `strings.Join(lines, "\n")`. -/
def joinNl : List (List Char) → List Char
  | [] => []
  | [l] => l
  | l :: l' :: ls => l ++ '\n' :: joinNl (l' :: ls)

/-- `utils.CleanupWhitespace`: split on newlines, skip the lines whose
`TrimSpace` is empty, join the remaining lines with newlines. -/
def CleanupWhitespace (content : List Char) : List Char :=
  joinNl ((splitOnNl content).filter (fun line => !(trimSpace line).isEmpty))

/-- A text "contains a blank line" when it is non-empty and one of its
newline-separated lines is empty or whitespace-only. -/
def hasBlankLine (s : List Char) : Bool :=
  !s.isEmpty && (splitOnNl s).any (fun line => (trimSpace line).isEmpty)

theorem splitOnNl_ne_nil (s : List Char) : splitOnNl s ≠ [] := by
  cases s with
  | nil => simp [splitOnNl]
  | cons c cs =>
    simp only [splitOnNl]
    split
    · simp
    · cases splitOnNl cs <;> simp

theorem no_nl_of_mem_splitOnNl (s l : List Char) (h : l ∈ splitOnNl s) :
    '\n' ∉ l := by
  induction s generalizing l with
  | nil => simp [splitOnNl] at h; simp [h]
  | cons c cs ih =>
    simp only [splitOnNl] at h
    by_cases hc : c = '\n'
    · simp [hc] at h
      rcases h with h | h
      · simp [h]
      · exact ih l h
    · simp [hc] at h
      rcases hl : splitOnNl cs with _ | ⟨t, ts⟩
      · exact absurd hl (splitOnNl_ne_nil cs)
      · rw [hl] at h
        simp at h
        rcases h with h | h
        · subst h
          intro hmem
          simp at hmem
          rcases hmem with h | h
          · exact hc h.symm
          · exact ih t (by rw [hl]; simp) h
        · exact ih l (by rw [hl]; simp [h])

theorem splitOnNl_no_nl (l : List Char) (h : '\n' ∉ l) : splitOnNl l = [l] := by
  induction l with
  | nil => simp [splitOnNl]
  | cons c cs ih =>
    simp at h
    simp only [splitOnNl]
    rw [if_neg (by simp [Ne.symm h.1]), ih h.2]

theorem splitOnNl_append_nl (a rest : List Char) (h : '\n' ∉ a) :
    splitOnNl (a ++ '\n' :: rest) = a :: splitOnNl rest := by
  induction a with
  | nil => simp [splitOnNl]
  | cons c cs ih =>
    simp at h
    simp only [List.cons_append, splitOnNl]
    rw [if_neg (by simp [Ne.symm h.1])]
    rw [show splitOnNl (cs.append ('\n' :: rest)) = cs :: splitOnNl rest from
      ih h.2]

theorem splitOnNl_joinNl (ls : List (List Char)) (hne : ls ≠ [])
    (h : ∀ l ∈ ls, '\n' ∉ l) : splitOnNl (joinNl ls) = ls := by
  induction ls with
  | nil => exact absurd rfl hne
  | cons a ls ih =>
    cases ls with
    | nil => simp [joinNl, splitOnNl_no_nl a (h a (by simp))]
    | cons b ls' =>
      have ha : '\n' ∉ a := h a (by simp)
      rw [joinNl, splitOnNl_append_nl a _ ha,
        ih (by simp) (fun l hl => h l (by simp [hl]))]

/-- C10 helper: the output of the cleanup either is empty or splits into
exactly the non-blank lines of the input. -/
theorem cleanup_lines (s : List Char) :
    CleanupWhitespace s = [] ∨
      splitOnNl (CleanupWhitespace s) =
        (splitOnNl s).filter (fun line => !(trimSpace line).isEmpty) := by
  rcases hf : (splitOnNl s).filter (fun line => !(trimSpace line).isEmpty)
    with _ | ⟨l, ls⟩
  · left; simp [CleanupWhitespace, hf, joinNl]
  · right
    rw [CleanupWhitespace, hf, splitOnNl_joinNl _ (by simp)]
    intro l' hl'
    have : l' ∈ splitOnNl s := by
      have := hf ▸ hl'
      exact List.mem_of_mem_filter this
    exact no_nl_of_mem_splitOnNl s l' this

/-- C10: `CleanupWhitespace` keeps exactly the lines that are not empty or
whitespace-only, byte-for-byte and in order (it equals the filter of the
split, rejoined), and consequently its output never contains a blank
line. -/
theorem cleanupWhitespace_removes_blank_lines :
    (∀ s : List Char,
      CleanupWhitespace s =
        joinNl ((splitOnNl s).filter (fun line => !(trimSpace line).isEmpty))) ∧
    (∀ s : List Char, hasBlankLine (CleanupWhitespace s) = false) := by
  constructor
  · intro s; rfl
  · intro s
    rcases cleanup_lines s with h | h
    · simp [hasBlankLine, h]
    · simp only [hasBlankLine]
      cases hc : CleanupWhitespace s with
      | nil => simp
      | cons c cs =>
        rw [← hc, h]
        simp only [Bool.and_eq_false_iff]
        right
        rw [List.any_eq_false]
        intro l hl
        have := List.of_mem_filter hl
        simpa using this

/-! ## Substring search (`strings.Index`, `strings.Contains`, `findTag`) -/

/-- Convenience: the character list of a string literal. -/
def chars (s : String) : List Char := s.data

/-- Does `s` begin with `pat`?  (Byte-wise comparison of Go strings.) -/
def startsWith : List Char → List Char → Bool
  | _, [] => true
  | [], _ :: _ => false
  | c :: s, p :: ps => c = p && startsWith s ps

/-- `strings.Index(s, pat)`: position of the first occurrence of `pat` in
`s`, or `none` where Go returns `-1`. -/
def indexOfChars (s pat : List Char) : Option Nat :=
  if startsWith s pat then some 0
  else
    match s with
    | [] => none
    | _ :: s' => (indexOfChars s' pat).map (· + 1)

/-- `strings.Contains(s, pat)`. -/
def containsSub (s pat : List Char) : Bool := (indexOfChars s pat).isSome

/-- The scanning loop of `parser.findTag`: `fuel` counts the positions
still to be tested, starting at index `i`.  The Go loop tests indices
`0 ≤ i < len(html) - len(tag)` — note the strict bound, which excludes an
occurrence flush at the end of the document. -/
def findTagAux (html tag : List Char) : Nat → Nat → Option Nat
  | 0, _ => none
  | fuel + 1, i =>
    if startsWith (html.drop i) tag then some i
    else findTagAux html tag fuel (i + 1)

/-- `parser.findTag(html, tag)`. -/
def findTag (html tag : List Char) : Option Nat :=
  findTagAux html tag (html.length - tag.length) 0

theorem startsWith_iff_take (s pat : List Char) :
    startsWith s pat = true ↔ s.take pat.length = pat := by
  induction pat generalizing s with
  | nil => simp [startsWith]
  | cons p ps ih =>
    cases s with
    | nil => simp [startsWith]
    | cons c s' => simp [startsWith, ih]

theorem findTagAux_none_iff (html tag : List Char) (fuel i : Nat) :
    findTagAux html tag fuel i = none ↔
      ∀ j, i ≤ j → j < i + fuel → startsWith (html.drop j) tag = false := by
  induction fuel generalizing i with
  | zero => simp [findTagAux]; omega
  | succ fuel ih =>
    simp only [findTagAux]
    by_cases hs : startsWith (html.drop i) tag = true
    · simp only [hs, if_true]
      constructor
      · intro h; exact absurd h (by simp)
      · intro h
        have := h i (le_refl i) (by omega)
        rw [hs] at this; exact absurd this (by simp)
    · simp only [Bool.not_eq_true] at hs
      rw [if_neg (by simp [hs]), ih]
      constructor
      · intro h j hj hj'
        rcases Nat.eq_or_lt_of_le hj with rfl | hlt
        · exact hs
        · exact h j hlt (by omega)
      · intro h j hj hj'
        exact h j (by omega) (by omega)

theorem findTag_none_iff (html tag : List Char) :
    findTag html tag = none ↔
      ∀ j, j + tag.length < html.length → startsWith (html.drop j) tag = false := by
  rw [findTag, findTagAux_none_iff]
  constructor
  · intro h j hj
    exact h j (Nat.zero_le j) (by omega)
  · intro h j _ hj
    exact h j (by omega)

/-- Outcome of `parser.splitHTMLBody`: the three-part split, the `nil`
return for a missing tag, or the runtime panic of the slice expression
`html[bodyStart+6 : bodyEnd]` when its low bound exceeds its high bound. -/
inductive SplitResult where
  | ok (head body tail : List Char)
  | nilResult
  | panicked
deriving DecidableEq

/-- Outcome of the three body-splitting template operations: the assembled
document, the StructuralError returned on a `nil` split, or a propagated
runtime panic. -/
inductive ExtractResult where
  | ok (s : List Char)
  | structuralError
  | panicked
deriving DecidableEq

/-- `parser.splitHTMLBody(html)`: locate the first `<body>` and the first
`</body>` with `findTag` and cut the document into head, body content and
tail.  `nilResult` models the `nil` return when a tag is missing;
`panicked` models the runtime panic of `html[bodyStart+6 : bodyEnd]` when
the first `</body>` begins before the end of the first `<body>`. -/
def splitHTMLBody (html : List Char) : SplitResult :=
  match findTag html (chars "<body>"), findTag html (chars "</body>") with
  | some bodyStart, some bodyEnd =>
    if bodyStart + 6 ≤ bodyEnd then
      SplitResult.ok (html.take bodyStart)
        ((html.drop (bodyStart + 6)).take (bodyEnd - (bodyStart + 6)))
        (html.drop (bodyEnd + 7))
    else SplitResult.panicked
  | _, _ => SplitResult.nilResult

/-- `parser.ExtractWrapper`: head, a fixed body placeholder, tail.
`structuralError` models the error return on a `nil` split. -/
def ExtractWrapper (indexHTML : List Char) : ExtractResult :=
  match splitHTMLBody indexHTML with
  | SplitResult.ok head _ tail =>
    ExtractResult.ok (head ++ chars "<body>\n\t\x7b\x7b . \x7d\x7d\n</body>" ++ tail)
  | SplitResult.nilResult => ExtractResult.structuralError
  | SplitResult.panicked => ExtractResult.panicked

/-- `parser.ExtractMain`: head, header invocation, original body, footer
invocation, tail. -/
def ExtractMain (indexHTML : List Char) : ExtractResult :=
  match splitHTMLBody indexHTML with
  | SplitResult.ok head body tail =>
    ExtractResult.ok
      (head ++ chars "<body>\n\t\x7b\x7b template \"header.html\" . \x7d\x7d\n\t" ++
        body ++ chars "\n\t\x7b\x7b template \"footer.html\" . \x7d\x7d\n</body>" ++ tail)
  | SplitResult.nilResult => ExtractResult.structuralError
  | SplitResult.panicked => ExtractResult.panicked

/-- `parser.WrapPageWithHeaderFooter`: identical assembly to
`ExtractMain`, applied to a page document. -/
def WrapPageWithHeaderFooter (pageHTML : List Char) : ExtractResult :=
  match splitHTMLBody pageHTML with
  | SplitResult.ok head body tail =>
    ExtractResult.ok
      (head ++ chars "<body>\n\t\x7b\x7b template \"header.html\" . \x7d\x7d\n\t" ++
        body ++ chars "\n\t\x7b\x7b template \"footer.html\" . \x7d\x7d\n</body>" ++ tail)
  | SplitResult.nilResult => ExtractResult.structuralError
  | SplitResult.panicked => ExtractResult.panicked

/-- A tag is found by `findTag` exactly when it occurs at some position
strictly before `length - tag length` (an occurrence flush at the end of
the document is missed). -/
def tagFound (doc tag : List Char) : Prop :=
  ∃ i, i + tag.length < doc.length ∧ startsWith (doc.drop i) tag = true

theorem findTag_isSome_iff (html tag : List Char) :
    (findTag html tag).isSome ↔ tagFound html tag := by
  rw [Option.isSome_iff_ne_none, Ne, findTag_none_iff, tagFound]
  push_neg
  simp only [Bool.not_eq_false]

theorem splitHTMLBody_nil_iff (doc : List Char) :
    splitHTMLBody doc = SplitResult.nilResult ↔
      ¬(tagFound doc (chars "<body>") ∧ tagFound doc (chars "</body>")) := by
  rw [← findTag_isSome_iff, ← findTag_isSome_iff, splitHTMLBody]
  rcases findTag doc (chars "<body>") with _ | i <;>
    rcases findTag doc (chars "</body>") with _ | j <;>
    dsimp only
  · simp
  · simp
  · simp
  · constructor
    · intro h
      by_cases hij : i + 6 ≤ j
      · rw [if_pos hij] at h; exact absurd h (by simp)
      · rw [if_neg hij] at h; exact absurd h (by simp)
    · intro h
      simp at h

theorem splitHTMLBody_panic_iff (doc : List Char) :
    splitHTMLBody doc = SplitResult.panicked ↔
      ∃ i j, findTag doc (chars "<body>") = some i ∧
        findTag doc (chars "</body>") = some j ∧ j < i + 6 := by
  rw [splitHTMLBody]
  rcases findTag doc (chars "<body>") with _ | i <;>
    rcases findTag doc (chars "</body>") with _ | j <;>
    dsimp only
  · simp
  · simp
  · simp
  · by_cases hij : i + 6 ≤ j
    · rw [if_pos hij]
      simp
      omega
    · rw [if_neg hij]
      simp
      omega

theorem splitHTMLBody_ok_iff (doc : List Char) :
    (∃ hd bd tl, splitHTMLBody doc = SplitResult.ok hd bd tl) ↔
      ∃ i j, findTag doc (chars "<body>") = some i ∧
        findTag doc (chars "</body>") = some j ∧ i + 6 ≤ j := by
  rw [splitHTMLBody]
  rcases findTag doc (chars "<body>") with _ | i <;>
    rcases findTag doc (chars "</body>") with _ | j <;>
    dsimp only
  · simp
  · simp
  · simp
  · by_cases hij : i + 6 ≤ j
    · rw [if_pos hij]
      simp [hij]
    · rw [if_neg hij]
      simp
      omega

/-- C5 (amended): for each of the three body-splitting template
operations, a missing `<body>` or `</body>` marker (as `findTag` searches,
strictly before `length - tag length`) yields the StructuralError; when
both markers are found, duplicated markers are tolerated and the first
occurrences are used: the operation succeeds when the first `</body>`
begins at or after the end of the first `<body>`, and the Go slice
expression `html[bodyStart+6 : bodyEnd]` panics when it begins before. -/
theorem extract_outcomes_body_markers (doc : List Char) :
    ((ExtractWrapper doc = ExtractResult.structuralError ↔
        ¬(tagFound doc (chars "<body>") ∧ tagFound doc (chars "</body>"))) ∧
      ((∃ s, ExtractWrapper doc = ExtractResult.ok s) ↔
        ∃ i j, findTag doc (chars "<body>") = some i ∧
          findTag doc (chars "</body>") = some j ∧ i + 6 ≤ j) ∧
      (ExtractWrapper doc = ExtractResult.panicked ↔
        ∃ i j, findTag doc (chars "<body>") = some i ∧
          findTag doc (chars "</body>") = some j ∧ j < i + 6)) ∧
    ((ExtractMain doc = ExtractResult.structuralError ↔
        ¬(tagFound doc (chars "<body>") ∧ tagFound doc (chars "</body>"))) ∧
      ((∃ s, ExtractMain doc = ExtractResult.ok s) ↔
        ∃ i j, findTag doc (chars "<body>") = some i ∧
          findTag doc (chars "</body>") = some j ∧ i + 6 ≤ j) ∧
      (ExtractMain doc = ExtractResult.panicked ↔
        ∃ i j, findTag doc (chars "<body>") = some i ∧
          findTag doc (chars "</body>") = some j ∧ j < i + 6)) ∧
    ((WrapPageWithHeaderFooter doc = ExtractResult.structuralError ↔
        ¬(tagFound doc (chars "<body>") ∧ tagFound doc (chars "</body>"))) ∧
      ((∃ s, WrapPageWithHeaderFooter doc = ExtractResult.ok s) ↔
        ∃ i j, findTag doc (chars "<body>") = some i ∧
          findTag doc (chars "</body>") = some j ∧ i + 6 ≤ j) ∧
      (WrapPageWithHeaderFooter doc = ExtractResult.panicked ↔
        ∃ i j, findTag doc (chars "<body>") = some i ∧
          findTag doc (chars "</body>") = some j ∧ j < i + 6)) := by
  have hn := splitHTMLBody_nil_iff doc
  have ho := splitHTMLBody_ok_iff doc
  have hp := splitHTMLBody_panic_iff doc
  refine ⟨⟨?_, ?_, ?_⟩, ⟨?_, ?_, ?_⟩, ⟨?_, ?_, ?_⟩⟩
  · rw [← hn]; simp only [ExtractWrapper]
    cases splitHTMLBody doc <;> simp
  · rw [← ho]; simp only [ExtractWrapper]
    cases splitHTMLBody doc <;> simp
  · rw [← hp]; simp only [ExtractWrapper]
    cases splitHTMLBody doc <;> simp
  · rw [← hn]; simp only [ExtractMain]
    cases splitHTMLBody doc <;> simp
  · rw [← ho]; simp only [ExtractMain]
    cases splitHTMLBody doc <;> simp
  · rw [← hp]; simp only [ExtractMain]
    cases splitHTMLBody doc <;> simp
  · rw [← hn]; simp only [WrapPageWithHeaderFooter]
    cases splitHTMLBody doc <;> simp
  · rw [← ho]; simp only [WrapPageWithHeaderFooter]
    cases splitHTMLBody doc <;> simp
  · rw [← hp]; simp only [WrapPageWithHeaderFooter]
    cases splitHTMLBody doc <;> simp

/-- C5 counterexample: a document with a duplicated body boundary does not
yield a StructuralError — `ExtractWrapper` succeeds on it, assembling the
wrapper from the first occurrences of the markers. -/
theorem duplicated_body_boundary_succeeds :
    ExtractWrapper (chars "a<body>b</body>c<body>d</body>e") =
      ExtractResult.ok
        (chars "a<body>\n\t\x7b\x7b . \x7d\x7d\n</body>c<body>d</body>e") := by
  decide

/-! ## Data context (`generator.SimpleDataContext`) -/

/-- A parsed YAML value: nested mappings, sequences and scalars.  Mappings
are association lists with the first binding of a key authoritative. -/
inductive GoVal where
  | vmap : List (List Char × GoVal) → GoVal
  | vseq : List GoVal → GoVal
  | vstr : List Char → GoVal
  | vint : Int → GoVal
  | vnil : GoVal

/-- Lookup of a key in a mapping (`currentMap[part]`). -/
def lookupAssoc : List (List Char × GoVal) → List Char → Option GoVal
  | [], _ => none
  | (k, v) :: rest, key => if k = key then some v else lookupAssoc rest key

/-- The accumulator loop of `generator.splitPath`: characters are added to
`current`, and a dot flushes a non-empty `current` as a segment. -/
def splitPathLoop : List Char → List Char → List (List Char)
  | current, [] => if current.isEmpty then [] else [current]
  | current, c :: cs =>
    if c = '.' then
      if current.isEmpty then splitPathLoop [] cs
      else current :: splitPathLoop [] cs
    else splitPathLoop (current ++ [c]) cs

/-- `generator.splitPath(path)`. -/
def splitPathGo (path : List Char) : List (List Char) :=
  if path = [] ∨ path = ['.'] then [] else splitPathLoop [] path

/-- The error value `generator.DataPathError{Path, Part}`. -/
structure DataPathError where
  path : List Char
  part : List Char
deriving DecidableEq

/-- The traversal loop of `SimpleDataContext.Get`: empty parts are
skipped; every other part requires the current node to be a mapping that
contains the part as a key. -/
def getLoop (path : List Char) : GoVal → List (List Char) → Except DataPathError GoVal
  | current, [] => .ok current
  | current, part :: rest =>
    if part.isEmpty then getLoop path current rest
    else
      match current with
      | .vmap m =>
        match lookupAssoc m part with
        | some next => getLoop path next rest
        | none => .error ⟨path, part⟩
      | .vseq _ => .error ⟨path, part⟩
      | .vstr _ => .error ⟨path, part⟩
      | .vint _ => .error ⟨path, part⟩
      | .vnil => .error ⟨path, part⟩

/-- `generator.SimpleDataContext.Get(path)`: the whole tree for `""` or
`"."`, otherwise the traversal over the dot-separated segments.  The Go
receiver is read-only, so the tree is a plain argument (the call leaves it
unchanged by construction). -/
def Get (data : List (List Char × GoVal)) (path : List Char) :
    Except DataPathError GoVal :=
  if path = [] ∨ path = ['.'] then .ok (.vmap data)
  else getLoop path (.vmap data) (splitPathGo path)

/-- The walk described by the claim: traverse the segments of the path in
order through mapping nodes only; a non-mapping intermediate node or an
absent key is an error naming the attempted path and the exact failing
segment. -/
def getSpecWalk (path : List Char) : GoVal → List (List Char) → Except DataPathError GoVal
  | v, [] => .ok v
  | v, seg :: rest =>
    match v with
    | .vmap m =>
      match lookupAssoc m seg with
      | some next => getSpecWalk path next rest
      | none => .error ⟨path, seg⟩
    | .vseq _ => .error ⟨path, seg⟩
    | .vstr _ => .error ⟨path, seg⟩
    | .vint _ => .error ⟨path, seg⟩
    | .vnil => .error ⟨path, seg⟩

/-- The lookup function as the specification states it. -/
def GetSpec (data : List (List Char × GoVal)) (path : List Char) :
    Except DataPathError GoVal :=
  if path = [] ∨ path = ['.'] then .ok (.vmap data)
  else getSpecWalk path (.vmap data) (splitPathGo path)

theorem splitPathLoop_no_empty (s : List Char) :
    ∀ current, ∀ seg ∈ splitPathLoop current s, seg ≠ [] := by
  induction s with
  | nil =>
    intro current seg hseg
    simp only [splitPathLoop] at hseg
    by_cases hc : current.isEmpty
    · rw [if_pos hc] at hseg; simp at hseg
    · rw [if_neg hc] at hseg
      simp at hseg
      simpa [hseg] using hc
  | cons c cs ih =>
    intro current seg hseg
    simp only [splitPathLoop] at hseg
    by_cases hc : c = '.'
    · rw [if_pos hc] at hseg
      by_cases hcur : current.isEmpty
      · rw [if_pos hcur] at hseg
        exact ih [] seg hseg
      · rw [if_neg hcur] at hseg
        simp at hseg
        rcases hseg with rfl | hseg
        · simpa using hcur
        · exact ih [] seg hseg
    · rw [if_neg hc] at hseg
      exact ih (current ++ [c]) seg hseg

theorem getLoop_eq_specWalk (path : List Char) (v : GoVal)
    (segs : List (List Char)) (h : ∀ seg ∈ segs, seg ≠ []) :
    getLoop path v segs = getSpecWalk path v segs := by
  induction segs generalizing v with
  | nil => rfl
  | cons seg rest ih =>
    have hne : seg ≠ [] := h seg (by simp)
    cases v with
    | vmap m =>
      rw [getLoop.eq_def, getSpecWalk.eq_def]
      dsimp only
      rw [if_neg (by simpa using hne)]
      cases hl : lookupAssoc m seg with
      | none => rfl
      | some next => exact ih next (fun s hs => h s (by simp [hs]))
    | vseq l =>
      rw [getLoop.eq_def]; dsimp only; rw [if_neg (by simpa using hne)]; rfl
    | vstr s =>
      rw [getLoop.eq_def]; dsimp only; rw [if_neg (by simpa using hne)]; rfl
    | vint i =>
      rw [getLoop.eq_def]; dsimp only; rw [if_neg (by simpa using hne)]; rfl
    | vnil =>
      rw [getLoop.eq_def]; dsimp only; rw [if_neg (by simpa using hne)]; rfl

theorem getLoop_error_path (path : List Char) (v : GoVal)
    (segs : List (List Char)) (e : DataPathError)
    (h : getLoop path v segs = .error e) : e.path = path := by
  induction segs generalizing v with
  | nil => simp [getLoop] at h
  | cons seg rest ih =>
    rw [getLoop.eq_def] at h
    dsimp only at h
    by_cases hskip : seg.isEmpty
    · rw [if_pos hskip] at h
      exact ih v h
    · rw [if_neg hskip] at h
      cases v with
      | vmap m =>
        dsimp only at h
        rcases hl : lookupAssoc m seg with _ | next <;> rw [hl] at h
        · simp at h; simp [← h]
        · exact ih next h
      | vseq l => dsimp only at h; simp at h; simp [← h]
      | vstr s => dsimp only at h; simp at h; simp [← h]
      | vint i => dsimp only at h; simp at h; simp [← h]
      | vnil => dsimp only at h; simp at h; simp [← h]

/-- C8: `SimpleDataContext.Get` computes exactly the lookup the claim
describes — it traverses only mapping nodes following the segments of the
dot-path in order, fails exactly on a non-mapping intermediate node or an
absent key, and the error carries the attempted path (with the exact
failing segment by the equality to the spec walk); the tree is an
unmodified argument of the pure function. -/
theorem get_matches_spec :
    (∀ (data : List (List Char × GoVal)) (path : List Char),
      Get data path = GetSpec data path) ∧
    (∀ (data : List (List Char × GoVal)) (path : List Char) (e : DataPathError),
      Get data path = .error e → e.path = path) := by
  constructor
  · intro data path
    rw [Get, GetSpec]
    split
    · rfl
    · rw [getLoop_eq_specWalk]
      intro seg hseg
      rw [splitPathGo] at hseg
      split at hseg
      · simp at hseg
      · exact splitPathLoop_no_empty path [] seg hseg
  · intro data path e h
    rw [Get] at h
    split at h
    · simp at h
    · exact getLoop_error_path path _ _ e h

/-! ## Marker extraction (`utils.ExtractTemplatesAndBody`,
`parser.ExtractEncryptKey`) -/

theorem startsWith_length_le (s pat : List Char) (h : startsWith s pat = true) :
    pat.length ≤ s.length := by
  induction pat generalizing s with
  | nil => simp
  | cons p ps ih =>
    cases s with
    | nil => simp [startsWith] at h
    | cons c s' =>
      simp only [startsWith, Bool.and_eq_true] at h
      simpa using ih s' h.2

theorem indexOfChars_some (s pat : List Char) (i : Nat)
    (h : indexOfChars s pat = some i) :
    i + pat.length ≤ s.length ∧ startsWith (s.drop i) pat = true := by
  induction s generalizing i with
  | nil =>
    rw [indexOfChars] at h
    split at h
    · simp at h
      subst h
      exact ⟨by simpa using startsWith_length_le [] pat (by assumption), by assumption⟩
    · simp at h
  | cons c s' ih =>
    rw [indexOfChars] at h
    split at h
    · simp at h
      subst h
      refine ⟨?_, by assumption⟩
      simpa using startsWith_length_le (c :: s') pat (by assumption)
    · simp at h
      rcases h with ⟨j, hj, rfl⟩
      have := ih j hj
      simp only [List.length_cons, List.drop_succ_cons]
      exact ⟨by omega, this.2⟩

/-- The dot normalization of a preview data path: prefix a nonempty path
that does not start with a dot. -/
def dotPrefix (dp : List Char) : List Char :=
  if ¬dp.isEmpty && ¬startsWith dp (chars ".") then '.' :: dp else dp

/-- The preview-extraction block of `utils.ExtractTemplatesAndBody`:
the first `<preview>` span of the whole document (the search is not
restricted to the head section), trimmed and dot-prefixed; empty when
either marker of the span is missing. -/
def extractPreviewPath (content : List Char) : List Char :=
  match indexOfChars content (chars "<preview>") with
  | none => []
  | some ps =>
    match indexOfChars (content.drop ps) (chars "</preview>") with
    | none => []
    | some pe => dotPrefix (trimSpace ((content.drop (ps + 9)).take (pe - 9)))

/-- `utils.ExtractTemplatesAndBody(content)`: the preview data path and
the text between the first `<body>` and the first `</body>`; `none`
models the "no body tag found" error. -/
def ExtractTemplatesAndBody (content : List Char) :
    Option (List Char × List Char) :=
  match indexOfChars content (chars "<body>"),
      indexOfChars content (chars "</body>") with
  | some bs, some be =>
    some (extractPreviewPath content, (content.drop (bs + 6)).take (be - (bs + 6)))
  | _, _ => none

/-- `parser.TagReplacer.ExtractEncryptKey(content)`: the trimmed text of
the first `<encrypt>` span of the whole document; empty when either
marker of the span is missing. -/
def ExtractEncryptKey (content : List Char) : List Char :=
  match indexOfChars content (chars "<encrypt>") with
  | none => []
  | some st =>
    match indexOfChars (content.drop st) (chars "</encrypt>") with
    | none => []
    | some en => trimSpace ((content.drop (st + 9)).take (en - 9))

/-- C7 counterexample: a document whose only `<preview>` span sits in the
body, after the `<body>` marker, still yields a data path — the search is
not restricted to the head section as the claim states. -/
theorem preview_span_in_body_honored :
    extractPreviewPath
        (chars "<html><head></head><body><preview>foo</preview></body></html>") =
      chars ".foo" ∧
    indexOfChars
        (chars "<html><head></head><body><preview>foo</preview></body></html>")
        (chars "<body>") = some 19 ∧
    indexOfChars
        (chars "<html><head></head><body><preview>foo</preview></body></html>")
        (chars "<preview>") = some 25 := by
  refine ⟨by decide, by decide, by decide⟩

/-- C7 (amended): the first `<preview>X</preview>` span anywhere in a
component document (head or body — the search is not restricted to the
head) yields X trimmed of whitespace and auto-prefixed with a dot when it
lacks one, and the first `<encrypt>X</encrypt>` span anywhere in a page
document yields X trimmed of whitespace; the content after the first span
— including any later duplicate markers — does not influence the result,
and duplicates are never an error (the extractors are total). -/
theorem marker_extraction_first_span (pre x post pre' y post' : List Char)
    (h1 : indexOfChars (pre ++ chars "<preview>" ++ x ++ chars "</preview>" ++ post)
        (chars "<preview>") = some pre.length)
    (h2 : indexOfChars ((pre ++ chars "<preview>" ++ x ++ chars "</preview>" ++ post).drop
        pre.length) (chars "</preview>") = some (9 + x.length))
    (h3 : indexOfChars (pre' ++ chars "<encrypt>" ++ y ++ chars "</encrypt>" ++ post')
        (chars "<encrypt>") = some pre'.length)
    (h4 : indexOfChars ((pre' ++ chars "<encrypt>" ++ y ++ chars "</encrypt>" ++ post').drop
        pre'.length) (chars "</encrypt>") = some (9 + y.length)) :
    extractPreviewPath (pre ++ chars "<preview>" ++ x ++ chars "</preview>" ++ post) =
      dotPrefix (trimSpace x) ∧
    ExtractEncryptKey (pre' ++ chars "<encrypt>" ++ y ++ chars "</encrypt>" ++ post') =
      trimSpace y := by
  constructor
  · rw [extractPreviewPath, h1]
    dsimp only
    rw [h2]
    dsimp only
    have hdrop : (pre ++ chars "<preview>" ++ x ++ chars "</preview>" ++ post).drop
        (pre.length + 9) = x ++ (chars "</preview>" ++ post) := by
      rw [show pre ++ chars "<preview>" ++ x ++ chars "</preview>" ++ post =
          (pre ++ chars "<preview>") ++ (x ++ (chars "</preview>" ++ post)) by simp,
        List.drop_left' (by rw [List.length_append]; rfl)]
    rw [hdrop, Nat.add_sub_cancel_left, List.take_left]
  · rw [ExtractEncryptKey, h3]
    dsimp only
    rw [h4]
    dsimp only
    have hdrop : (pre' ++ chars "<encrypt>" ++ y ++ chars "</encrypt>" ++ post').drop
        (pre'.length + 9) = y ++ (chars "</encrypt>" ++ post') := by
      rw [show pre' ++ chars "<encrypt>" ++ y ++ chars "</encrypt>" ++ post' =
          (pre' ++ chars "<encrypt>") ++ (y ++ (chars "</encrypt>" ++ post')) by simp,
        List.drop_left' (by rw [List.length_append]; rfl)]
    rw [hdrop, Nat.add_sub_cancel_left, List.take_left]

/-- C7 witness: the amended statement applied to a concrete component
document (duplicate second preview span discarded) and a concrete page
document. -/
theorem marker_extraction_first_span_witness :
    (indexOfChars (chars "<head><preview> a.b </preview><preview>z</preview></head>")
        (chars "<preview>") = some 6 ∧
      indexOfChars ((chars "<head><preview> a.b </preview><preview>z</preview></head>").drop 6)
        (chars "</preview>") = some 14) ∧
    extractPreviewPath (chars "<head><preview> a.b </preview><preview>z</preview></head>") =
      chars ".a.b" ∧
    ExtractEncryptKey (chars "<head><encrypt> pw </encrypt></head>") = chars "pw" := by
  have h := marker_extraction_first_span
    (chars "<head>") (chars " a.b ") (chars "<preview>z</preview></head>")
    (chars "<head>") (chars " pw ") (chars "</head>")
    (by decide) (by decide) (by decide) (by decide)
  refine ⟨⟨by decide, by decide⟩, ?_, ?_⟩
  · exact h.1.trans (by decide)
  · exact h.2.trans (by decide)

/-! ## Path rewriting (`generator.AdjustPathsForDepth`,
`generator.AdjustPathsForPreview`)

The two Go regular expressions

  `((?:link|a)[^>]*href=")([a-zA-Z][^":]*?)(")`   and   `(src=")([a-zA-Z][^":]*?)(")`

are embedded as explicit leftmost-first matchers (the semantics of the Go
regexp package): at each position the alternation prefers `link` over
`a`, the greedy `[^>]*` prefers the longest gap and backtracks downwards,
and the lazy value class stops at the first quote, failing on a colon.
`ReplaceAllString` walks the text left to right, replacing each
non-overlapping match with group 1, the prefix, group 2 and the closing
quote, and resuming after the match. -/

/-- The literal `src="` of the src pattern. -/
def srcPat : List Char := ['s', 'r', 'c', '=', '"']

/-- The literal `href="` of the href pattern. -/
def hrefPat : List Char := ['h', 'r', 'e', 'f', '=', '"']

/-- The literal `link` alternative of the href pattern. -/
def linkPat : List Char := ['l', 'i', 'n', 'k']

/-- The regex class `[a-zA-Z]`. -/
def isAsciiAlpha (c : Char) : Bool :=
  (97 ≤ c.toNat && c.toNat ≤ 122) || (65 ≤ c.toNat && c.toNat ≤ 90)

/-- The value tail `[^":]*?` followed by the closing `"`: collect
characters until the first quote; fail on a colon or at the end of the
text.  Returns the value and the text after the closing quote. -/
def scanValue : List Char → Option (List Char × List Char)
  | [] => none
  | c :: cs =>
    if c = '"' then some ([], cs)
    else if c = ':' then none
    else (scanValue cs).map (fun p => (c :: p.1, p.2))

/-- Match of the src pattern at the head of `t`: the literal `src="`,
then `[a-zA-Z][^":]*?` and the closing quote.  Returns (value, rest). -/
def matchSrcAt (t : List Char) : Option (List Char × List Char) :=
  if startsWith t srcPat then
    match t.drop 5 with
    | [] => none
    | c :: cs =>
      if isAsciiAlpha c then (scanValue cs).map (fun p => (c :: p.1, p.2))
      else none
  else none

/-- One candidate width `k` of the greedy gap `[^>]*`: consume `k`
characters of `u`, then the literal `href="` and a value.  Returns
(gap and literal, value, rest). -/
def hrefAfterGap (u : List Char) (k : Nat) :
    Option (List Char × List Char × List Char) :=
  if startsWith (u.drop k) hrefPat then
    match (u.drop k).drop 6 with
    | [] => none
    | c :: cs =>
      if isAsciiAlpha c then
        (scanValue cs).map (fun p => (u.take k ++ hrefPat, c :: p.1, p.2))
      else none
  else none

/-- Greedy backtracking over the gap width: the longest candidate is
preferred. -/
def tryGaps (u : List Char) : Nat → Option (List Char × List Char × List Char)
  | 0 => hrefAfterGap u 0
  | k + 1 =>
    match hrefAfterGap u (k + 1) with
    | some r => some r
    | none => tryGaps u k

/-- Match of the href pattern at the head of `t`: the alternation
`(?:link|a)` (preferring `link`), the greedy gap bounded by the characters
before the next `>`, the literal `href="`, and a value.  Returns
(group 1, value, rest). -/
def matchHrefAt (t : List Char) : Option (List Char × List Char × List Char) :=
  if startsWith t linkPat then
    (tryGaps (t.drop 4) ((t.drop 4).takeWhile (fun c => c ≠ '>')).length).map
      (fun r => ('l' :: 'i' :: 'n' :: 'k' :: r.1, r.2.1, r.2.2))
  else if startsWith t ['a'] then
    (tryGaps (t.drop 1) ((t.drop 1).takeWhile (fun c => c ≠ '>')).length).map
      (fun r => ('a' :: r.1, r.2.1, r.2.2))
  else none

/-- `hrefPattern.ReplaceAllString(text, prefix inserted before group 2)`:
left-to-right scan replacing non-overlapping matches.  The fuel is the
text length; every step advances by at least one character. -/
def replaceHrefAux (pfx : List Char) : Nat → List Char → List Char
  | 0, t => t
  | _ + 1, [] => []
  | fuel + 1, c :: cs =>
    match matchHrefAt (c :: cs) with
    | some (g1, v, rest) => g1 ++ pfx ++ v ++ '"' :: replaceHrefAux pfx fuel rest
    | none => c :: replaceHrefAux pfx fuel cs

/-- `srcPattern.ReplaceAllString(text, prefix inserted before group 2)`. -/
def replaceSrcAux (pfx : List Char) : Nat → List Char → List Char
  | 0, t => t
  | _ + 1, [] => []
  | fuel + 1, c :: cs =>
    match matchSrcAt (c :: cs) with
    | some (v, rest) => srcPat ++ pfx ++ v ++ '"' :: replaceSrcAux pfx fuel rest
    | none => c :: replaceSrcAux pfx fuel cs

/-- `strings.Repeat("../", depth)`. -/
def pathPrefix (depth : Nat) : List Char :=
  (List.replicate depth (chars "../")).flatten

/-- `generator.AdjustPathsForDepth(html, depth)`: identity at depth 0,
otherwise the href replacement followed by the src replacement, both
prepending `depth` copies of `../` to matched values. -/
def AdjustPathsForDepth (html : List Char) (depth : Nat) : List Char :=
  if depth = 0 then html
  else
    replaceSrcAux (pathPrefix depth)
      (replaceHrefAux (pathPrefix depth) html.length html).length
      (replaceHrefAux (pathPrefix depth) html.length html)

/-- `generator.AdjustPathsForPreview(html)`: the same two replacements
with the fixed prefix `../../`. -/
def AdjustPathsForPreview (html : List Char) : List Char :=
  replaceSrcAux (chars "../../")
    (replaceHrefAux (chars "../../") html.length html).length
    (replaceHrefAux (chars "../../") html.length html)

theorem indexOfChars_none (s pat : List Char) (h : indexOfChars s pat = none) :
    ∀ j, startsWith (s.drop j) pat = false := by
  induction s with
  | nil =>
    intro j
    rw [indexOfChars] at h
    split at h
    · simp at h
    · simpa [List.drop_nil] using Bool.not_eq_true _ ▸ (by assumption)
  | cons c s' ih =>
    intro j
    rw [indexOfChars] at h
    split at h
    · simp at h
    · have hrec : indexOfChars s' pat = none := by
        rcases hr : indexOfChars s' pat with _ | k
        · rfl
        · rw [hr] at h; simp at h
      cases j with
      | zero =>
        simpa using Bool.not_eq_true _ ▸ (by assumption)
      | succ j' => simpa using ih hrec j'

theorem containsSub_false_startsWith (s pat : List Char)
    (h : containsSub s pat = false) :
    ∀ j, startsWith (s.drop j) pat = false := by
  rw [containsSub] at h
  rcases hi : indexOfChars s pat with _ | i
  · exact indexOfChars_none s pat hi
  · rw [hi] at h; simp at h

theorem startsWith_append_self (p x : List Char) :
    startsWith (p ++ x) p = true := by
  induction p with
  | nil => cases x <;> rfl
  | cons c cs ih => simpa [startsWith] using ih

theorem scanValue_append (v rest : List Char)
    (h : ∀ ch ∈ v, ch ≠ '"' ∧ ch ≠ ':') :
    scanValue (v ++ '"' :: rest) = some (v, rest) := by
  induction v with
  | nil => simp [scanValue]
  | cons c v' ih =>
    have hc := h c (by simp)
    rw [List.cons_append, scanValue, if_neg (by simp [hc.1]),
      if_neg (by simp [hc.2]), ih (fun ch hch => h ch (by simp [hch]))]
    rfl

theorem tryGaps_none (u : List Char)
    (h : ∀ k, startsWith (u.drop k) hrefPat = false) :
    ∀ n, tryGaps u n = none := by
  intro n
  induction n with
  | zero => rw [tryGaps, hrefAfterGap, if_neg (by simpa using h 0)]
  | succ k ih =>
    rw [tryGaps, hrefAfterGap, if_neg (by simpa using h (k + 1)), ih]

theorem matchHrefAt_none (t : List Char)
    (hl : startsWith t linkPat = false)
    (hh : ∀ k, startsWith (t.drop k) hrefPat = false) :
    matchHrefAt t = none := by
  rw [matchHrefAt, if_neg (by simp [hl])]
  split
  · rw [tryGaps_none]
    · rfl
    · intro k
      rw [List.drop_drop]
      exact hh (1 + k)
  · rfl

theorem replaceHrefAux_id (pfx : List Char) (fuel : Nat) (t : List Char)
    (h : ∀ j, matchHrefAt (t.drop j) = none) :
    replaceHrefAux pfx fuel t = t := by
  induction fuel generalizing t with
  | zero => rfl
  | succ fuel ih =>
    cases t with
    | nil => rfl
    | cons c cs =>
      rw [replaceHrefAux, show matchHrefAt (c :: cs) = none from by
        simpa using h 0]
      rw [ih cs (fun j => by simpa using h (j + 1))]

theorem replaceSrcAux_step_none (pfx : List Char) (fuel : Nat) (c : Char)
    (cs : List Char) (h : matchSrcAt (c :: cs) = none) :
    replaceSrcAux pfx (fuel + 1) (c :: cs) = c :: replaceSrcAux pfx fuel cs := by
  rw [replaceSrcAux, h]

theorem replaceSrcAux_step_some (pfx : List Char) (fuel : Nat) (c : Char)
    (cs v rest : List Char) (h : matchSrcAt (c :: cs) = some (v, rest)) :
    replaceSrcAux pfx (fuel + 1) (c :: cs) =
      srcPat ++ pfx ++ v ++ '"' :: replaceSrcAux pfx fuel rest := by
  rw [replaceSrcAux, h]

/-- The href pass leaves a text without `link` and `href="` occurrences
unchanged. -/
theorem replaceHrefAux_id_of_absent (pfx : List Char) (fuel : Nat)
    (t : List Char) (hl : containsSub t linkPat = false)
    (hh : containsSub t hrefPat = false) :
    replaceHrefAux pfx fuel t = t := by
  refine replaceHrefAux_id pfx fuel t (fun j => ?_)
  refine matchHrefAt_none _ (containsSub_false_startsWith t linkPat hl j) ?_
  intro k
  rw [List.drop_drop]
  exact containsSub_false_startsWith t hrefPat hh (j + k)

/-- The core of the amended C6 statement: a single well-formed `src`
attribute whose quote-free, colon-free value starts with a letter gets
the prefix, for an arbitrary prefix. -/
theorem replaceSrc_img (pfx : List Char) (c : Char) (v' : List Char)
    (hc : isAsciiAlpha c = true)
    (hv : ∀ ch ∈ c :: v', ch ≠ '"' ∧ ch ≠ ':') :
    ∀ fuel, fuel = v'.length + 8 →
      replaceSrcAux pfx fuel (srcPat ++ (c :: v') ++ ['"', '>']) =
        srcPat ++ pfx ++ (c :: v') ++ ['"', '>'] := by
  intro fuel hfuel
  have hmatch : matchSrcAt (srcPat ++ (c :: v') ++ ['"', '>']) =
      some (c :: v', ['>']) := by
    rw [matchSrcAt, if_pos (by
      rw [show srcPat ++ (c :: v') ++ ['"', '>'] =
        srcPat ++ ((c :: v') ++ ['"', '>']) by simp]
      exact startsWith_append_self srcPat _)]
    rw [show (srcPat ++ (c :: v') ++ ['"', '>']).drop 5 =
        c :: (v' ++ '"' :: ['>']) by
      rw [show srcPat ++ (c :: v') ++ ['"', '>'] =
        srcPat ++ (c :: (v' ++ '"' :: ['>'])) by simp,
        List.drop_left' (by rfl)]]
    dsimp only
    rw [if_pos hc, scanValue_append v' ['>']
      (fun ch hch => hv ch (by simp [hch]))]
    rfl
  have hnil : ∀ f, replaceSrcAux pfx f ([] : List Char) = [] := by
    intro f; cases f <;> rfl
  rcases fuel with _ | fuel'
  · omega
  · rw [show srcPat ++ (c :: v') ++ ['"', '>'] =
      's' :: ('r' :: 'c' :: '=' :: '"' :: ((c :: v') ++ ['"', '>'])) by
        simp [srcPat]] at hmatch ⊢
    rw [replaceSrcAux_step_some pfx fuel' _ _ _ _ hmatch]
    have hgt : replaceSrcAux pfx fuel' ['>'] = ['>'] := by
      rcases fuel' with _ | f
      · rfl
      · rw [replaceSrcAux_step_none pfx f '>' []
          (by rw [matchSrcAt, if_neg (by simp [startsWith, srcPat])]), hnil f]
    rw [hgt]

/-- C6 counterexample: `<use href="logo.png">` contains an `href=`
attribute whose value begins with a letter, has no scheme separator and
is not upward-relative, yet depth-2 rewriting leaves it unchanged — the
code only rewrites `href=` values preceded by `link` or an `a` with no
intervening `>`. -/
theorem use_href_not_rewritten :
    AdjustPathsForDepth (chars "<use href=\"logo.png\">") 2 =
      chars "<use href=\"logo.png\">" := by
  decide

/-- C6 (amended): depth 0 is the identity; for every depth `d > 0` a
`src=` attribute value that begins with a letter and contains no quote
and no colon receives `d` repetitions of `../` (shown for an arbitrary
eligible value in an `<img>` tag); the `href=` values of `link`/`a` tags
behave the same way, and absolute values, full URLs and upward-relative
values are unchanged — but an `href=` value not preceded by `link` or an
`a` inside the tag (such as in `<use>`) is not rewritten. -/
theorem adjustPaths_depth_rule (d : Nat) (c : Char) (v' : List Char)
    (hd : d ≠ 0) (hc : isAsciiAlpha c = true)
    (hv : ∀ ch ∈ c :: v', ch ≠ '"' ∧ ch ≠ ':')
    (hlink : containsSub ('<' :: 'i' :: 'm' :: 'g' :: ' ' ::
      (srcPat ++ (c :: v') ++ ['"', '>'])) linkPat = false)
    (hhref : containsSub ('<' :: 'i' :: 'm' :: 'g' :: ' ' ::
      (srcPat ++ (c :: v') ++ ['"', '>'])) hrefPat = false) :
    (∀ html : List Char, AdjustPathsForDepth html 0 = html) ∧
    AdjustPathsForDepth ('<' :: 'i' :: 'm' :: 'g' :: ' ' ::
        (srcPat ++ (c :: v') ++ ['"', '>'])) d =
      '<' :: 'i' :: 'm' :: 'g' :: ' ' ::
        (srcPat ++ pathPrefix d ++ (c :: v') ++ ['"', '>']) ∧
    AdjustPathsForDepth (chars "<a href=\"logo.png\">") 2 =
      chars "<a href=\"../../logo.png\">" ∧
    AdjustPathsForDepth (chars "<img src=\"logo.png\">") 2 =
      chars "<img src=\"../../logo.png\">" ∧
    AdjustPathsForDepth (chars "<a href=\"/abs.png\">") 2 =
      chars "<a href=\"/abs.png\">" ∧
    AdjustPathsForDepth (chars "<a href=\"https://x/y.png\">") 2 =
      chars "<a href=\"https://x/y.png\">" ∧
    AdjustPathsForDepth (chars "<a href=\"../up.png\">") 2 =
      chars "<a href=\"../up.png\">" ∧
    AdjustPathsForDepth (chars "<use href=\"logo.png\">") 2 =
      chars "<use href=\"logo.png\">" := by
  refine ⟨fun html => by rw [AdjustPathsForDepth, if_pos rfl],
    ?_, by decide, by decide, by decide, by decide, by decide, by decide⟩
  rw [AdjustPathsForDepth, if_neg hd]
  rw [replaceHrefAux_id_of_absent _ _ _ hlink hhref]
  have hlen : ('<' :: 'i' :: 'm' :: 'g' :: ' ' ::
      (srcPat ++ (c :: v') ++ ['"', '>'])).length = v'.length + 13 := by
    simp [srcPat]
  rw [hlen]
  have step : ∀ (x : Char) (cs : List Char) (fuel : Nat),
      startsWith (x :: cs) srcPat = false →
      replaceSrcAux (pathPrefix d) (fuel + 1) (x :: cs) =
        x :: replaceSrcAux (pathPrefix d) fuel cs := by
    intro x cs fuel hx
    exact replaceSrcAux_step_none _ _ _ _ (by rw [matchSrcAt, if_neg (by simp [hx])])
  rw [show v'.length + 13 = (v'.length + 12) + 1 by omega,
    step '<' _ _ (by simp [startsWith, srcPat]),
    show v'.length + 12 = (v'.length + 11) + 1 by omega,
    step 'i' _ _ (by simp [startsWith, srcPat]),
    show v'.length + 11 = (v'.length + 10) + 1 by omega,
    step 'm' _ _ (by simp [startsWith, srcPat]),
    show v'.length + 10 = (v'.length + 9) + 1 by omega,
    step 'g' _ _ (by simp [startsWith, srcPat]),
    show v'.length + 9 = (v'.length + 8) + 1 by omega,
    step ' ' _ _ (by simp [startsWith, srcPat]),
    replaceSrc_img (pathPrefix d) c v' hc hv (v'.length + 8) rfl]

/-- C6 witness: the amended statement at depth 2 with the value
`x.png`. -/
theorem adjustPaths_depth_rule_witness :
    (isAsciiAlpha 'x' = true ∧
      containsSub (chars "<img src=\"x.png\">") linkPat = false ∧
      containsSub (chars "<img src=\"x.png\">") hrefPat = false) ∧
    AdjustPathsForDepth (chars "<img src=\"x.png\">") 2 =
      chars "<img src=\"../../x.png\">" := by
  have h := adjustPaths_depth_rule 2 'x' (chars ".png") (by decide) (by decide)
    (by decide) (by decide) (by decide)
  exact ⟨⟨by decide, by decide, by decide⟩, h.2.1.trans (by decide)⟩

/-! ## Tag replacement (`parser.TagReplacer`) and the usage analyzer
(`site.findUsedComponents`, `site.reportUnusedComponents`) -/

/-- `strings.ReplaceAll(s, old, new)`: left-to-right replacement of
non-overlapping occurrences.  Fuel is the text length; every step
advances by at least one character since `old` is non-empty at every
call site (component tags are `<` + name + `>`). -/
def replaceAllAux (old new : List Char) : Nat → List Char → List Char
  | 0, s => s
  | _ + 1, [] => []
  | fuel + 1, c :: cs =>
    if startsWith (c :: cs) old then
      new ++ replaceAllAux old new fuel ((c :: cs).drop old.length)
    else c :: replaceAllAux old new fuel cs

/-- `strings.ReplaceAll(s, old, new)` for non-empty `old`. -/
def replaceAll (s old new : List Char) : List Char :=
  if old.isEmpty then s else replaceAllAux old new s.length s

/-- The removal loop shared by `RemovePreviewTags` and
`RemoveEncryptTags`: while an opening marker and, after it, a closing
marker are found, delete the whole span; stop when either is missing.
Fuel is the text length; every removal deletes at least the closing
marker. -/
def removeSpansAux (openT closeT : List Char) : Nat → List Char → List Char
  | 0, s => s
  | fuel + 1, s =>
    match indexOfChars s openT with
    | none => s
    | some st =>
      match indexOfChars (s.drop st) closeT with
      | none => s
      | some en =>
        removeSpansAux openT closeT fuel
          (s.take st ++ s.drop (st + en + closeT.length))

/-- `parser.TagReplacer.RemovePreviewTags`. -/
def RemovePreviewTags (s : List Char) : List Char :=
  removeSpansAux (chars "<preview>") (chars "</preview>") s.length s

/-- `parser.TagReplacer.RemoveEncryptTags`. -/
def RemoveEncryptTags (s : List Char) : List Char :=
  removeSpansAux (chars "<encrypt>") (chars "</encrypt>") s.length s

/-- The component entity: name, source file path, and the pre-rewrite
fragment body (`site.originalComponentTemplates[name]`). -/
structure CompM where
  name : List Char
  filePath : List Char
  origTemplate : List Char
deriving DecidableEq

/-- The opening tag `<name>`. -/
def tagOf (name : List Char) : List Char := '<' :: (name ++ ['>'])

/-- The closing tag `</name>`. -/
def closeTagOf (name : List Char) : List Char := '<' :: '/' :: (name ++ ['>'])

/-- The replacement `{{ template "name" ` of an opening tag. -/
def templOpen (name : List Char) : List Char :=
  chars "\x7b\x7b template \"" ++ name ++ chars "\" "

/-- `parser.TagReplacer.ReplaceComponentTags(content, components)`: for
every component whose opening tag occurs, replace all opening tags by the
template invocation and all closing tags by ` }}`; then strip the
remaining preview and encrypt spans.  (Go iterates the component map in
unspecified order; the list order stands in for it.) -/
def ReplaceComponentTags (content : List Char) (comps : List CompM) : List Char :=
  RemoveEncryptTags (RemovePreviewTags (comps.foldl
    (fun result c =>
      if containsSub result (tagOf c.name) then
        replaceAll (replaceAll result (tagOf c.name) (templOpen c.name))
          (closeTagOf c.name) (chars " \x7d\x7d")
      else result)
    content))

/-- `site.isComponentUsedInContent(name, content)`. -/
def usedIn (name content : List Char) : Bool := containsSub content (tagOf name)

/-- Boolean membership of a name in a name list. -/
def memB (n : List Char) (l : List (List Char)) : Bool := l.any (fun m => m = n)

/-- `originalComponentTemplates[name]` (empty for an unknown name). -/
def lookupOrig : List CompM → List Char → List Char
  | [], _ => []
  | c :: rest, n => if c.name = n then c.origTemplate else lookupOrig rest n

/-- Set union of name lists: add the new names that are not yet
present. -/
def unionNew (used new : List (List Char)) : List (List Char) :=
  used ++ new.filter (fun n => !memB n used)

/-- The three seeding scans of `site.findUsedComponents`: components
named by the original main template, by the header or footer text the
call sites pass (`s.headerContent`, `s.footerContent`), and by every
page's original content. -/
def seedUsed (comps : List CompM) (mainC headerC footerC : List Char)
    (pages : List (List Char)) : List (List Char) :=
  pages.foldl
    (fun acc p => unionNew acc ((comps.filter (fun c => usedIn c.name p)).map (·.name)))
    (unionNew ((comps.filter (fun c => usedIn c.name mainC)).map (·.name))
      ((comps.filter (fun c =>
        usedIn c.name headerC || usedIn c.name footerC)).map (·.name)))

/-- One pass of the dependency closure: every component not yet used
whose tag occurs in the pre-rewrite template of a used component is
added.  (Go iterates two nested maps with an in-place check against the
growing set; with distinct component names the added set is the same.) -/
def onePass (comps : List CompM) (used : List (List Char)) : List (List Char) :=
  used ++ (comps.filter (fun c =>
    !memB c.name used &&
      used.any (fun n => usedIn c.name (lookupOrig comps n)))).map (·.name)

/-- The `for changed` loop: repeat passes until one adds nothing.  Fuel
bounds the number of growing passes; `comps.length` passes always
suffice (`usedLoop_stable`). -/
def usedLoop (comps : List CompM) : Nat → List (List Char) → List (List Char)
  | 0, used => used
  | fuel + 1, used =>
    if onePass comps used = used then used
    else usedLoop comps fuel (onePass comps used)

/-- `site.findUsedComponents` as invoked by `Generate`: seed from the
entry points, then close under dependencies. -/
def findUsedComponents (comps : List CompM) (mainC headerC footerC : List Char)
    (pages : List (List Char)) : List (List Char) :=
  usedLoop comps comps.length (seedUsed comps mainC headerC footerC pages)

/-- `site.reportUnusedComponents`: the file paths of the components whose
name is not in the used set (logged as a non-fatal warning list). -/
def reportUnusedComponents (comps : List CompM) (used : List (List Char)) :
    List (List Char) :=
  (comps.filter (fun c => !memB c.name used)).map (·.filePath)

/-- The entry-point texts of the usage analysis: main body, header,
footer, and every page. -/
def entryTexts (mainC headerC footerC : List Char) (pages : List (List Char)) :
    List (List Char) :=
  mainC :: headerC :: footerC :: pages

/-- The reachability relation of the claim: a component is reachable
when its literal tag occurs in an entry-point text, or in the
pre-rewrite template of a reachable component. -/
inductive ReachableSpec (comps : List CompM) (mainC headerC footerC : List Char)
    (pages : List (List Char)) : List Char → Prop
  | seed (c : CompM) (t : List Char) (hc : c ∈ comps)
      (ht : t ∈ entryTexts mainC headerC footerC pages)
      (h : usedIn c.name t = true) :
      ReachableSpec comps mainC headerC footerC pages c.name
  | step (c : CompM) (n : List Char) (hc : c ∈ comps)
      (hn : ReachableSpec comps mainC headerC footerC pages n)
      (h : usedIn c.name (lookupOrig comps n) = true) :
      ReachableSpec comps mainC headerC footerC pages c.name

theorem memB_iff (n : List Char) (l : List (List Char)) :
    memB n l = true ↔ n ∈ l := by
  simp [memB]

/-- Invariant of the used-set: no duplicates, and every entry is the
name of a component. -/
def UsedInv (comps : List CompM) (used : List (List Char)) : Prop :=
  used.Nodup ∧ ∀ n ∈ used, ∃ c ∈ comps, c.name = n

theorem onePass_extends (comps : List CompM) (used : List (List Char)) :
    used ⊆ onePass comps used :=
  List.subset_append_left _ _

theorem mem_onePass (comps : List CompM) (used : List (List Char)) (n : List Char) :
    n ∈ onePass comps used ↔ n ∈ used ∨
      ∃ c, c ∈ comps ∧ c.name = n ∧ memB c.name used = false ∧
        used.any (fun m => usedIn c.name (lookupOrig comps m)) = true := by
  simp only [onePass, List.mem_append, List.mem_map, List.mem_filter,
    Bool.and_eq_true, Bool.not_eq_true']
  constructor
  · rintro (h | ⟨c, ⟨hc, hm, ha⟩, rfl⟩)
    · exact Or.inl h
    · exact Or.inr ⟨c, hc, rfl, hm, ha⟩
  · rintro (h | ⟨c, hc, rfl, hm, ha⟩)
    · exact Or.inl h
    · exact Or.inr ⟨c, ⟨hc, hm, ha⟩, rfl⟩

theorem names_filter_nodup (comps : List CompM)
    (hnames : (comps.map CompM.name).Nodup) (p : CompM → Bool) :
    ((comps.filter p).map (·.name)).Nodup :=
  List.Nodup.sublist (List.Sublist.map _ (List.filter_sublist comps)) hnames

theorem onePass_inv (comps : List CompM) (used : List (List Char))
    (hnames : (comps.map CompM.name).Nodup) (h : UsedInv comps used) :
    UsedInv comps (onePass comps used) := by
  constructor
  · refine List.Nodup.append h.1 (names_filter_nodup comps hnames _) ?_
    intro a ha hb
    rcases List.mem_map.mp hb with ⟨c, hc, rfl⟩
    have := (List.mem_filter.mp hc).2
    simp only [Bool.and_eq_true, Bool.not_eq_true'] at this
    rw [(memB_iff _ _).mpr ha] at this
    exact absurd this.1 (by simp)
  · intro n hn
    rcases (mem_onePass comps used n).mp hn with hu | ⟨c, hc, rfl, _, _⟩
    · exact h.2 n hu
    · exact ⟨c, hc, rfl⟩

theorem onePass_lengthen (comps : List CompM) (used : List (List Char))
    (h : onePass comps used ≠ used) :
    used.length < (onePass comps used).length := by
  rw [onePass] at h ⊢
  rcases hl : (comps.filter _).map (·.name) with _ | ⟨a, rest⟩
  · rw [hl] at h; simp at h
  · rw [hl]; simp

theorem usedInv_length_le (comps : List CompM) (used : List (List Char))
    (h : UsedInv comps used) : used.length ≤ comps.length := by
  have h1 : used.length = used.toFinset.card :=
    (List.toFinset_card_of_nodup h.1).symm
  have h2 : used.toFinset ⊆ (comps.map CompM.name).toFinset := by
    intro a ha
    rw [List.mem_toFinset] at ha ⊢
    rcases h.2 a ha with ⟨c, hc, rfl⟩
    exact List.mem_map.mpr ⟨c, hc, rfl⟩
  calc used.length = used.toFinset.card := h1
    _ ≤ (comps.map CompM.name).toFinset.card := Finset.card_le_card h2
    _ ≤ (comps.map CompM.name).length := List.toFinset_card_le _
    _ = comps.length := List.length_map _ _

theorem full_fixpoint (comps : List CompM) (used : List (List Char))
    (h : UsedInv comps used)
    (hlen : used.length = comps.length) : onePass comps used = used := by
  have hsub : used.toFinset ⊆ (comps.map CompM.name).toFinset := by
    intro a ha
    rw [List.mem_toFinset] at ha ⊢
    rcases h.2 a ha with ⟨c, hc, rfl⟩
    exact List.mem_map.mpr ⟨c, hc, rfl⟩
  have hcard : (comps.map CompM.name).toFinset.card ≤ used.toFinset.card := by
    calc (comps.map CompM.name).toFinset.card
        ≤ (comps.map CompM.name).length := List.toFinset_card_le _
      _ = comps.length := List.length_map _ _
      _ = used.length := hlen.symm
      _ = used.toFinset.card := (List.toFinset_card_of_nodup h.1).symm
  have heq : used.toFinset = (comps.map CompM.name).toFinset :=
    Finset.eq_of_subset_of_card_le hsub hcard
  have hall : ∀ c ∈ comps, memB c.name used = true := by
    intro c hc
    rw [memB_iff, ← List.mem_toFinset, heq, List.mem_toFinset]
    exact List.mem_map.mpr ⟨c, hc, rfl⟩
  rw [onePass]
  rw [show comps.filter (fun c => !memB c.name used &&
      used.any (fun n => usedIn c.name (lookupOrig comps n))) = [] from ?_]
  · simp
  · rw [List.filter_eq_nil_iff]
    intro c hc
    rw [hall c hc]
    simp

theorem usedLoop_extends (comps : List CompM) :
    ∀ (fuel : Nat) (used : List (List Char)), used ⊆ usedLoop comps fuel used := by
  intro fuel
  induction fuel with
  | zero => intro used; exact fun a ha => ha
  | succ fuel ih =>
    intro used
    rw [usedLoop]
    split
    · exact fun a ha => ha
    · exact fun a ha => ih (onePass comps used) (onePass_extends comps used ha)

theorem usedLoop_inv (comps : List CompM) (hnames : (comps.map CompM.name).Nodup) :
    ∀ (fuel : Nat) (used : List (List Char)),
      UsedInv comps used → UsedInv comps (usedLoop comps fuel used) := by
  intro fuel
  induction fuel with
  | zero => intro used h; exact h
  | succ fuel ih =>
    intro used h
    rw [usedLoop]
    split
    · exact h
    · exact ih _ (onePass_inv comps used hnames h)

theorem usedLoop_stable (comps : List CompM) (hnames : (comps.map CompM.name).Nodup) :
    ∀ (fuel : Nat) (used : List (List Char)), UsedInv comps used →
      comps.length ≤ used.length + fuel →
      onePass comps (usedLoop comps fuel used) = usedLoop comps fuel used := by
  intro fuel
  induction fuel with
  | zero =>
    intro used h hlen
    rw [usedLoop]
    exact full_fixpoint comps used h
      (Nat.le_antisymm (usedInv_length_le comps used h) (by omega))
  | succ fuel ih =>
    intro used h hlen
    rw [usedLoop]
    split
    · assumption
    · refine ih (onePass comps used) (onePass_inv comps used hnames h) ?_
      have := onePass_lengthen comps used (by assumption)
      omega

theorem mem_unionNew (used new : List (List Char)) (n : List Char) :
    n ∈ unionNew used new ↔ n ∈ used ∨ n ∈ new := by
  simp only [unionNew, List.mem_append, List.mem_filter, Bool.not_eq_true']
  constructor
  · rintro (h | ⟨h, _⟩)
    · exact Or.inl h
    · exact Or.inr h
  · rintro (h | h)
    · exact Or.inl h
    · by_cases hm : n ∈ used
      · exact Or.inl hm
      · refine Or.inr ⟨h, ?_⟩
        rcases hb : memB n used with _ | _
        · rfl
        · exact absurd ((memB_iff n used).mp hb) hm

theorem unionNew_inv (comps : List CompM) (used new : List (List Char))
    (h : UsedInv comps used) (hnd : new.Nodup)
    (hnm : ∀ n ∈ new, ∃ c ∈ comps, c.name = n) :
    UsedInv comps (unionNew used new) := by
  constructor
  · refine List.Nodup.append h.1 (List.Nodup.filter _ hnd) ?_
    intro a ha hb
    have := (List.mem_filter.mp hb).2
    simp only [Bool.not_eq_true'] at this
    rw [(memB_iff _ _).mpr ha] at this
    exact absurd this (by simp)
  · intro n hn
    rcases (mem_unionNew used new n).mp hn with h' | h'
    · exact h.2 n h'
    · exact hnm n h'

theorem group_nodup_names (comps : List CompM)
    (hnames : (comps.map CompM.name).Nodup) (p : CompM → Bool) :
    ((comps.filter p).map (·.name)).Nodup ∧
      ∀ n ∈ (comps.filter p).map (·.name), ∃ c ∈ comps, c.name = n := by
  refine ⟨names_filter_nodup comps hnames p, ?_⟩
  intro n hn
  rcases List.mem_map.mp hn with ⟨c, hc, rfl⟩
  exact ⟨c, (List.mem_filter.mp hc).1, rfl⟩

theorem mem_foldl_unionNew (g : List Char → List (List Char)) :
    ∀ (pages : List (List Char)) (acc : List (List Char)) (n : List Char),
      n ∈ pages.foldl (fun a p => unionNew a (g p)) acc ↔
        n ∈ acc ∨ ∃ p ∈ pages, n ∈ g p := by
  intro pages
  induction pages with
  | nil => intro acc n; simp
  | cons p ps ih =>
    intro acc n
    rw [List.foldl_cons, ih, mem_unionNew]
    constructor
    · rintro ((h | h) | ⟨q, hq, h⟩)
      · exact Or.inl h
      · exact Or.inr ⟨p, by simp, h⟩
      · exact Or.inr ⟨q, by simp [hq], h⟩
    · rintro (h | ⟨q, hq, h⟩)
      · exact Or.inl (Or.inl h)
      · rcases List.mem_cons.mp hq with rfl | hq'
        · exact Or.inl (Or.inr h)
        · exact Or.inr ⟨q, hq', h⟩

theorem foldl_unionNew_inv (comps : List CompM)
    (hnames : (comps.map CompM.name).Nodup) (p : List Char → CompM → Bool) :
    ∀ (pages : List (List Char)) (acc : List (List Char)), UsedInv comps acc →
      UsedInv comps (pages.foldl
        (fun a pg => unionNew a ((comps.filter (p pg)).map (·.name))) acc) := by
  intro pages
  induction pages with
  | nil => intro acc h; exact h
  | cons pg ps ih =>
    intro acc h
    rw [List.foldl_cons]
    refine ih _ (unionNew_inv comps acc _ h ?_ ?_)
    · exact (group_nodup_names comps hnames _).1
    · exact (group_nodup_names comps hnames _).2

theorem seedUsed_inv (comps : List CompM) (mainC headerC footerC : List Char)
    (pages : List (List Char)) (hnames : (comps.map CompM.name).Nodup) :
    UsedInv comps (seedUsed comps mainC headerC footerC pages) := by
  rw [seedUsed]
  refine foldl_unionNew_inv comps hnames (fun p c => usedIn c.name p) pages _ ?_
  refine unionNew_inv comps _ _ ?_ (group_nodup_names comps hnames _).1
    (group_nodup_names comps hnames _).2
  exact ⟨(group_nodup_names comps hnames _).1, (group_nodup_names comps hnames _).2⟩

theorem mem_seedUsed (comps : List CompM) (mainC headerC footerC : List Char)
    (pages : List (List Char)) (n : List Char) :
    n ∈ seedUsed comps mainC headerC footerC pages ↔
      ∃ c ∈ comps, c.name = n ∧
        (usedIn c.name mainC = true ∨ usedIn c.name headerC = true ∨
          usedIn c.name footerC = true ∨ ∃ p ∈ pages, usedIn c.name p = true) := by
  rw [seedUsed, mem_foldl_unionNew, mem_unionNew]
  constructor
  · rintro ((h | h) | ⟨p, hp, h⟩)
    · rcases List.mem_map.mp h with ⟨c, hc, rfl⟩
      exact ⟨c, (List.mem_filter.mp hc).1, rfl,
        Or.inl (List.mem_filter.mp hc).2⟩
    · rcases List.mem_map.mp h with ⟨c, hc, rfl⟩
      have h2 := (List.mem_filter.mp hc).2
      rw [Bool.or_eq_true] at h2
      refine ⟨c, (List.mem_filter.mp hc).1, rfl, ?_⟩
      rcases h2 with h2 | h2
      · exact Or.inr (Or.inl h2)
      · exact Or.inr (Or.inr (Or.inl h2))
    · rcases List.mem_map.mp h with ⟨c, hc, rfl⟩
      exact ⟨c, (List.mem_filter.mp hc).1, rfl,
        Or.inr (Or.inr (Or.inr ⟨p, hp, (List.mem_filter.mp hc).2⟩))⟩
  · rintro ⟨c, hc, rfl, h | h | h | ⟨p, hp, h⟩⟩
    · exact Or.inl (Or.inl (List.mem_map.mpr ⟨c, List.mem_filter.mpr ⟨hc, h⟩, rfl⟩))
    · exact Or.inl (Or.inr (List.mem_map.mpr ⟨c, List.mem_filter.mpr
        ⟨hc, by rw [Bool.or_eq_true]; exact Or.inl h⟩, rfl⟩))
    · exact Or.inl (Or.inr (List.mem_map.mpr ⟨c, List.mem_filter.mpr
        ⟨hc, by rw [Bool.or_eq_true]; exact Or.inr h⟩, rfl⟩))
    · exact Or.inr ⟨p, hp, List.mem_map.mpr ⟨c, List.mem_filter.mpr ⟨hc, h⟩, rfl⟩⟩

theorem onePass_sound (comps : List CompM) (mainC headerC footerC : List Char)
    (pages : List (List Char)) (used : List (List Char))
    (h : ∀ m ∈ used, ReachableSpec comps mainC headerC footerC pages m) :
    ∀ n ∈ onePass comps used, ReachableSpec comps mainC headerC footerC pages n := by
  intro n hn
  rcases (mem_onePass comps used n).mp hn with hu | ⟨c, hc, rfl, _, ha⟩
  · exact h n hu
  · rw [List.any_eq_true] at ha
    rcases ha with ⟨m, hm, hu2⟩
    exact ReachableSpec.step c m hc (h m hm) (by simpa using hu2)

theorem usedLoop_sound (comps : List CompM) (mainC headerC footerC : List Char)
    (pages : List (List Char)) :
    ∀ (fuel : Nat) (used : List (List Char)),
      (∀ m ∈ used, ReachableSpec comps mainC headerC footerC pages m) →
      ∀ n ∈ usedLoop comps fuel used,
        ReachableSpec comps mainC headerC footerC pages n := by
  intro fuel
  induction fuel with
  | zero => intro used h; exact h
  | succ fuel ih =>
    intro used h
    rw [usedLoop]
    split
    · exact h
    · exact ih _ (onePass_sound comps mainC headerC footerC pages used h)

theorem seedUsed_sound (comps : List CompM) (mainC headerC footerC : List Char)
    (pages : List (List Char)) :
    ∀ n ∈ seedUsed comps mainC headerC footerC pages,
      ReachableSpec comps mainC headerC footerC pages n := by
  intro n hn
  rcases (mem_seedUsed comps mainC headerC footerC pages n).mp hn with
    ⟨c, hc, rfl, h | h | h | ⟨p, hp, h⟩⟩
  · exact ReachableSpec.seed c mainC hc (by simp [entryTexts]) h
  · exact ReachableSpec.seed c headerC hc (by simp [entryTexts]) h
  · exact ReachableSpec.seed c footerC hc (by simp [entryTexts]) h
  · exact ReachableSpec.seed c p hc (by simp [entryTexts, hp]) h

theorem reachable_mem_findUsed (comps : List CompM)
    (mainC headerC footerC : List Char) (pages : List (List Char))
    (hnames : (comps.map CompM.name).Nodup) (n : List Char)
    (h : ReachableSpec comps mainC headerC footerC pages n) :
    n ∈ findUsedComponents comps mainC headerC footerC pages := by
  induction h with
  | seed c t hc ht husage =>
    refine usedLoop_extends comps comps.length _ ?_
    rw [mem_seedUsed]
    simp only [entryTexts, List.mem_cons] at ht
    rcases ht with rfl | rfl | rfl | hp
    · exact ⟨c, hc, rfl, Or.inl husage⟩
    · exact ⟨c, hc, rfl, Or.inr (Or.inl husage)⟩
    · exact ⟨c, hc, rfl, Or.inr (Or.inr (Or.inl husage))⟩
    · exact ⟨c, hc, rfl, Or.inr (Or.inr (Or.inr ⟨t, hp, husage⟩))⟩
  | step c m hc hm husage ih =>
    rcases hb : memB c.name (findUsedComponents comps mainC headerC footerC pages)
      with _ | _
    · have hstab := usedLoop_stable comps hnames comps.length
        (seedUsed comps mainC headerC footerC pages)
        (seedUsed_inv comps mainC headerC footerC pages hnames)
        (Nat.le_add_left _ _)
      have : c.name ∈ onePass comps (findUsedComponents comps mainC headerC footerC pages) := by
        rw [mem_onePass]
        refine Or.inr ⟨c, hc, rfl, hb, ?_⟩
        rw [List.any_eq_true]
        exact ⟨m, ih, by simpa using husage⟩
      rwa [show onePass comps (findUsedComponents comps mainC headerC footerC pages) =
        findUsedComponents comps mainC headerC footerC pages from hstab] at this
    · exact (memB_iff _ _).mp hb

/-- C4 (amended): the used-set computed by the analyzer as `Generate`
invokes it — seeding from the original main content, the original page
contents, and the header and footer as stored by `Load`, which are the
POST-rewrite texts — equals the set of components transitively reachable
from those entry points through pre-rewrite component bodies.  The claim
as stated (all scans over pre-rewrite text) fails for the header and
footer entry points. -/
theorem used_set_is_reachable_closure (comps : List CompM)
    (mainC headerO footerO : List Char) (pages : List (List Char))
    (hnames : (comps.map CompM.name).Nodup) :
    ∀ n, n ∈ findUsedComponents comps mainC
        (ReplaceComponentTags headerO comps) (ReplaceComponentTags footerO comps)
        pages ↔
      ReachableSpec comps mainC (ReplaceComponentTags headerO comps)
        (ReplaceComponentTags footerO comps) pages n := by
  intro n
  constructor
  · intro h
    exact usedLoop_sound comps mainC _ _ pages comps.length _
      (seedUsed_sound comps mainC _ _ pages) n h
  · intro h
    exact reachable_mem_findUsed comps mainC _ _ pages hnames n h

/-- The one-component site of the C4 counterexample. -/
def comps1 : List CompM :=
  [⟨chars "c", chars "components/c.html", chars "x"⟩]

/-- C4 counterexample: a component referenced only from the header is
reachable from the pre-rewrite header text (as the claim reads the
analyzer), but the analyzer scans the post-rewrite header text, in which
the tag has already been replaced, so the component is not in the
used-set. -/
theorem header_reference_lost_after_rewrite :
    findUsedComponents comps1 (chars "m")
        (ReplaceComponentTags (chars "<c>t</c>") comps1)
        (ReplaceComponentTags [] comps1) [] = [] ∧
    ReachableSpec comps1 (chars "m") (chars "<c>t</c>") [] [] (chars "c") := by
  constructor
  · decide
  · exact ReachableSpec.seed ⟨chars "c", chars "components/c.html", chars "x"⟩
      (chars "<c>t</c>") (by simp [comps1]) (by simp [entryTexts]) (by decide)

/-- C4 witness: the amended closure statement on the concrete
one-component site. -/
theorem used_set_is_reachable_closure_witness :
    (comps1.map CompM.name).Nodup ∧
    (∀ n, n ∈ findUsedComponents comps1 (chars "m")
        (ReplaceComponentTags (chars "<c>t</c>") comps1)
        (ReplaceComponentTags [] comps1) [] ↔
      ReachableSpec comps1 (chars "m") (ReplaceComponentTags (chars "<c>t</c>") comps1)
        (ReplaceComponentTags [] comps1) [] n) :=
  ⟨by decide, used_set_is_reachable_closure comps1 (chars "m") (chars "<c>t</c>") [] []
    (by decide)⟩

theorem orphan_not_in_loop (comps : List CompM) (z : List Char) :
    ∀ (fuel : Nat) (used : List (List Char)), z ∉ used →
      (∀ n ∈ usedLoop comps fuel used, usedIn z (lookupOrig comps n) = false) →
      z ∉ usedLoop comps fuel used := by
  intro fuel
  induction fuel with
  | zero => intro used hz _; exact hz
  | succ fuel ih =>
    intro used hz hreach
    rw [usedLoop] at hreach ⊢
    by_cases heq : onePass comps used = used
    · rw [if_pos heq] at hreach ⊢
      exact hz
    · rw [if_neg heq] at hreach ⊢
      refine ih (onePass comps used) ?_ hreach
      intro hmem
      rcases (mem_onePass comps used z).mp hmem with h | ⟨c, hc, hcn, _, ha⟩
      · exact hz h
      · rw [List.any_eq_true] at ha
        rcases ha with ⟨m, hm, hu⟩
        have hmfin : m ∈ usedLoop comps fuel (onePass comps used) :=
          usedLoop_extends comps fuel _ (onePass_extends comps used hm)
        have := hreach m hmfin
        rw [hcn] at hu
        rw [hu] at this
        exact absurd this (by simp)

/-- C9: the used-set grows monotonically (every pass extends it), the
fixed point is reached within `comps.length` passes (one further pass
adds nothing), and a component with zero inbound references from the
entry points and from the templates of the used components is absent
from the used-set and therefore listed — by file path — in the
non-fatal orphaned-components report. -/
theorem usage_analysis_terminates_and_reports_orphans (comps : List CompM)
    (mainC headerC footerC : List Char) (pages : List (List Char))
    (hnames : (comps.map CompM.name).Nodup) (z : CompM) (hz : z ∈ comps)
    (hm : usedIn z.name mainC = false) (hh : usedIn z.name headerC = false)
    (hf : usedIn z.name footerC = false)
    (hp : ∀ p ∈ pages, usedIn z.name p = false)
    (hreach : ∀ n ∈ findUsedComponents comps mainC headerC footerC pages,
      usedIn z.name (lookupOrig comps n) = false) :
    (∀ used, used ⊆ onePass comps used) ∧
    onePass comps (findUsedComponents comps mainC headerC footerC pages) =
      findUsedComponents comps mainC headerC footerC pages ∧
    z.name ∉ findUsedComponents comps mainC headerC footerC pages ∧
    z.filePath ∈ reportUnusedComponents comps
      (findUsedComponents comps mainC headerC footerC pages) := by
  have hseed : z.name ∉ seedUsed comps mainC headerC footerC pages := by
    intro hmem
    rcases (mem_seedUsed comps mainC headerC footerC pages z.name).mp hmem with
      ⟨c, _, hcn, h | h | h | ⟨p, hp', h⟩⟩
    · rw [hcn, hm] at h; exact absurd h (by simp)
    · rw [hcn, hh] at h; exact absurd h (by simp)
    · rw [hcn, hf] at h; exact absurd h (by simp)
    · rw [hcn, hp p hp'] at h; exact absurd h (by simp)
  have hnot : z.name ∉ findUsedComponents comps mainC headerC footerC pages :=
    orphan_not_in_loop comps z.name comps.length _ hseed hreach
  refine ⟨onePass_extends comps, ?_, hnot, ?_⟩
  · exact usedLoop_stable comps hnames comps.length _
      (seedUsed_inv comps mainC headerC footerC pages hnames) (Nat.le_add_left _ _)
  · rw [reportUnusedComponents]
    refine List.mem_map.mpr ⟨z, List.mem_filter.mpr ⟨hz, ?_⟩, rfl⟩
    rcases hb : memB z.name (findUsedComponents comps mainC headerC footerC pages)
      with _ | _
    · rfl
    · exact absurd ((memB_iff _ _).mp hb) hnot

/-- C9 witness: a two-component site where `m` is referenced from the
main template and `z` from nowhere; `z` is absent from the used-set and
present in the orphan report. -/
theorem usage_analysis_orphans_witness :
    (usedIn (chars "z") (chars "<m>a</m>") = false ∧
      ∀ n ∈ findUsedComponents
        [⟨chars "m", chars "components/m.html", chars "y"⟩,
          ⟨chars "z", chars "components/z.html", chars "w"⟩]
        (chars "<m>a</m>") [] [] [],
        usedIn (chars "z") (lookupOrig
          [⟨chars "m", chars "components/m.html", chars "y"⟩,
            ⟨chars "z", chars "components/z.html", chars "w"⟩] n) = false) ∧
    chars "z" ∉ findUsedComponents
      [⟨chars "m", chars "components/m.html", chars "y"⟩,
        ⟨chars "z", chars "components/z.html", chars "w"⟩]
      (chars "<m>a</m>") [] [] [] ∧
    chars "components/z.html" ∈ reportUnusedComponents
      [⟨chars "m", chars "components/m.html", chars "y"⟩,
        ⟨chars "z", chars "components/z.html", chars "w"⟩]
      (findUsedComponents
        [⟨chars "m", chars "components/m.html", chars "y"⟩,
          ⟨chars "z", chars "components/z.html", chars "w"⟩]
        (chars "<m>a</m>") [] [] []) := by
  have h := usage_analysis_terminates_and_reports_orphans
    [⟨chars "m", chars "components/m.html", chars "y"⟩,
      ⟨chars "z", chars "components/z.html", chars "w"⟩]
    (chars "<m>a</m>") [] [] [] (by decide)
    ⟨chars "z", chars "components/z.html", chars "w"⟩ (by decide)
    (by decide) (by decide) (by decide) (by decide) (by decide)
  exact ⟨⟨by decide, by decide⟩, h.2.2.1, h.2.2.2⟩

/-! ## SHA-256, HMAC and PBKDF2 (`pkg/encrypt`)

Bytes are `Nat` values below 256 and 32-bit words are `Nat` values
reduced by `% 2^32`.  The SHA-256 and HMAC definitions embed the
standard constructions the Go standard library implements; the
`pbkdf2` functions translate `encrypt.pbkdf2` and `encrypt.pbkdf2Block`
line by line. -/

/-- Reduction to a 32-bit word. -/
def w32 (n : Nat) : Nat := n % 4294967296

/-- 32-bit right rotation. -/
def rotr32 (x n : Nat) : Nat := w32 ((x >>> n) ||| (x <<< (32 - n)))

/-- The SHA-256 round constants (fractional parts of the cube roots of
the first 64 primes). -/
def shaK : List Nat :=
  [1116352408, 1899447441, 3049323471, 3921009573,
   961987163, 1508970993, 2453635748, 2870763221,
   3624381080, 310598401, 607225278, 1426881987,
   1925078388, 2162078206, 2614888103, 3248222580,
   3835390401, 4022224774, 264347078, 604807628,
   770255983, 1249150122, 1555081692, 1996064986,
   2554220882, 2821834349, 2952996808, 3210313671,
   3336571891, 3584528711, 113926993, 338241895,
   666307205, 773529912, 1294757372, 1396182291,
   1695183700, 1986661051, 2177026350, 2456956037,
   2730485921, 2820302411, 3259730800, 3345764771,
   3516065817, 3600352804, 4094571909, 275423344,
   430227734, 506948616, 659060556, 883997877,
   958139571, 1322822218, 1537002063, 1747873779,
   1955562222, 2024104815, 2227730452, 2361852424,
   2428436474, 2756734187, 3204031479, 3329325298]

/-- The eight 32-bit working registers of SHA-256. -/
structure H8 where
  a : Nat
  b : Nat
  c : Nat
  d : Nat
  e : Nat
  f : Nat
  g : Nat
  h : Nat

/-- The SHA-256 initial state (fractional parts of the square roots of
the first 8 primes). -/
def shaH0 : H8 := ⟨1779033703, 3144134277, 1013904242, 2773480762,
  1359893119, 2600822924, 528734635, 1541459225⟩

/-- Big-endian 32-bit words of a byte list. -/
def chunkWords : List Nat → List Nat
  | b0 :: b1 :: b2 :: b3 :: rest =>
    (b0 <<< 24 ||| b1 <<< 16 ||| b2 <<< 8 ||| b3) :: chunkWords rest
  | _ => []

/-- The SHA-256 message-schedule extension from 16 to 64 words. -/
def extendWords : Nat → List Nat → List Nat
  | 0, ws => ws
  | n + 1, ws =>
    let len := ws.length
    let w15 := ws.getD (len - 15) 0
    let w2 := ws.getD (len - 2) 0
    let w16 := ws.getD (len - 16) 0
    let w7 := ws.getD (len - 7) 0
    let s0 := (rotr32 w15 7) ^^^ (rotr32 w15 18) ^^^ (w15 >>> 3)
    let s1 := (rotr32 w2 17) ^^^ (rotr32 w2 19) ^^^ (w2 >>> 10)
    extendWords n (ws ++ [w32 (w16 + s0 + w7 + s1)])

/-- One SHA-256 compression round for a constant and schedule word. -/
def shaRound (st : H8) (kw : Nat × Nat) : H8 :=
  let s1 := (rotr32 st.e 6) ^^^ (rotr32 st.e 11) ^^^ (rotr32 st.e 25)
  let ch := (st.e &&& st.f) ^^^ ((st.e ^^^ 4294967295) &&& st.g)
  let t1 := w32 (st.h + s1 + ch + kw.1 + kw.2)
  let s0 := (rotr32 st.a 2) ^^^ (rotr32 st.a 13) ^^^ (rotr32 st.a 22)
  let mj := (st.a &&& st.b) ^^^ (st.a &&& st.c) ^^^ (st.b &&& st.c)
  let t2 := w32 (s0 + mj)
  ⟨w32 (t1 + t2), st.a, st.b, st.c, w32 (st.d + t1), st.e, st.f, st.g⟩

/-- SHA-256 compression of one 64-byte block. -/
def shaCompress (st : H8) (block : List Nat) : H8 :=
  let fin := (shaK.zip (extendWords 48 (chunkWords block))).foldl shaRound st
  ⟨w32 (st.a + fin.a), w32 (st.b + fin.b), w32 (st.c + fin.c), w32 (st.d + fin.d),
   w32 (st.e + fin.e), w32 (st.f + fin.f), w32 (st.g + fin.g), w32 (st.h + fin.h)⟩

/-- SHA-256 padding: the 0x80 byte, zeros to 56 mod 64, and the 64-bit
big-endian bit length. -/
def shaPad (msg : List Nat) : List Nat :=
  let bitLen := msg.length * 8
  msg ++ [0x80] ++ List.replicate ((64 - (msg.length + 9) % 64) % 64) 0 ++
    [(bitLen >>> 56) % 256, (bitLen >>> 48) % 256, (bitLen >>> 40) % 256,
     (bitLen >>> 32) % 256, (bitLen >>> 24) % 256, (bitLen >>> 16) % 256,
     (bitLen >>> 8) % 256, bitLen % 256]

/-- Split into 64-byte blocks (fuel-bounded by the length). -/
def chunks64 : Nat → List Nat → List (List Nat)
  | 0, _ => []
  | _, [] => []
  | fuel + 1, l => l.take 64 :: chunks64 fuel (l.drop 64)

/-- Big-endian bytes of a 32-bit word. -/
def wordBytesBE (w : Nat) : List Nat :=
  [(w >>> 24) % 256, (w >>> 16) % 256, (w >>> 8) % 256, w % 256]

/-- SHA-256 of a byte list. -/
def sha256 (msg : List Nat) : List Nat :=
  let final := (chunks64 (shaPad msg).length (shaPad msg)).foldl shaCompress shaH0
  wordBytesBE final.a ++ wordBytesBE final.b ++ wordBytesBE final.c ++
    wordBytesBE final.d ++ wordBytesBE final.e ++ wordBytesBE final.f ++
    wordBytesBE final.g ++ wordBytesBE final.h

/-- HMAC-SHA-256 (`hmac.New(sha256.New, password)` followed by `Write`
and `Sum`): hash an over-long key, zero-pad to the 64-byte block size,
then the nested opad/ipad hashes. -/
def hmacSha256 (key msg : List Nat) : List Nat :=
  let k1 := if 64 < key.length then sha256 key else key
  let k0 := k1 ++ List.replicate (64 - k1.length) 0
  sha256 ((k0.map (fun b => b ^^^ 0x5c)) ++
    sha256 ((k0.map (fun b => b ^^^ 0x36)) ++ msg))

/-- Byte-wise xor (`result[j] ^= u[j]`). -/
def xorBytes (a b : List Nat) : List Nat := List.zipWith (fun x y => x ^^^ y) a b

/-- The big-endian 32-bit block index bytes written by
`encrypt.pbkdf2Block`. -/
def be32 (n : Nat) : List Nat :=
  [(n >>> 24) % 256, (n >>> 16) % 256, (n >>> 8) % 256, n % 256]

/-- The `U2..Uiter` loop of `encrypt.pbkdf2Block`: run `iter - 1` times,
replacing `u` by `HMAC(password, u)` and xoring it into the result. -/
def pbkdf2BlockLoop (password : List Nat) : Nat → List Nat → List Nat → List Nat
  | 0, _, result => result
  | i + 1, u, result =>
    let u' := hmacSha256 password u
    pbkdf2BlockLoop password i u' (xorBytes result u')

/-- `encrypt.pbkdf2Block(password, salt, iter, blockNum)`. -/
def pbkdf2Block (password salt : List Nat) (iter blockNum : Nat) : List Nat :=
  let u1 := hmacSha256 password (salt ++ be32 blockNum)
  pbkdf2BlockLoop password (iter - 1) u1 u1

/-- `encrypt.pbkdf2(password, salt, iter, keyLen)`: concatenate the
blocks for indices `1 .. ceil(keyLen/32)` and truncate. -/
def pbkdf2 (password salt : List Nat) (iter keyLen : Nat) : List Nat :=
  (((List.range ((keyLen + 32 - 1) / 32)).map
    (fun i => pbkdf2Block password salt iter (i + 1))).flatten).take keyLen

/-- The sequence `U₁, U₂, …` of the standard PBKDF2 construction for one
block index (`Useq p s b 0 = U₁`). -/
def Useq (password salt : List Nat) (blockNum : Nat) : Nat → List Nat
  | 0 => hmacSha256 password (salt ++ be32 blockNum)
  | i + 1 => hmacSha256 password (Useq password salt blockNum i)

/-- The first derived block `T₁ = U₁ ⊕ U₂ ⊕ … ⊕ U_iter` exactly as the
claim states the standard construction for block index 1. -/
def pbkdf2Spec (password salt : List Nat) (iter : Nat) : List Nat :=
  ((List.range (iter - 1)).map (fun i => Useq password salt 1 (i + 1))).foldl
    xorBytes (Useq password salt 1 0)

theorem sha256_length (msg : List Nat) : (sha256 msg).length = 32 := by
  simp [sha256, wordBytesBE]

theorem hmacSha256_length (key msg : List Nat) :
    (hmacSha256 key msg).length = 32 :=
  sha256_length _

theorem Useq_length (password salt : List Nat) (blockNum i : Nat) :
    (Useq password salt blockNum i).length = 32 := by
  cases i <;> exact hmacSha256_length _ _

theorem pbkdf2BlockLoop_eq (password salt : List Nat) (blockNum : Nat) :
    ∀ (n j : Nat) (result : List Nat),
      pbkdf2BlockLoop password n (Useq password salt blockNum j) result =
        ((List.range n).map
          (fun i => Useq password salt blockNum (j + i + 1))).foldl
          xorBytes result := by
  intro n
  induction n with
  | zero => intro j result; simp [pbkdf2BlockLoop]
  | succ n ih =>
    intro j result
    rw [pbkdf2BlockLoop]
    have hU : hmacSha256 password (Useq password salt blockNum j) =
        Useq password salt blockNum (j + 1) := rfl
    rw [show (let u' := hmacSha256 password (Useq password salt blockNum j)
        pbkdf2BlockLoop password n u' (xorBytes result u')) =
      pbkdf2BlockLoop password n (Useq password salt blockNum (j + 1))
        (xorBytes result (Useq password salt blockNum (j + 1))) from by rw [hU]]
    rw [ih (j + 1) _, List.range_succ_eq_map]
    simp only [List.map_cons, List.foldl_cons, List.map_map]
    have hmap : ((List.range n).map
        ((fun i => Useq password salt blockNum (j + i + 1)) ∘ (· + 1))) =
        (List.range n).map (fun i => Useq password salt blockNum (j + 1 + i + 1)) := by
      refine List.map_congr_left ?_
      intro i _
      simp only [Function.comp_apply]
      congr 1
      omega
    rw [hmap]

theorem foldl_xorBytes_length (l : List (List Nat)) (init : List Nat)
    (hinit : init.length = 32) (hl : ∀ x ∈ l, x.length = 32) :
    (l.foldl xorBytes init).length = 32 := by
  induction l generalizing init with
  | nil => simpa using hinit
  | cons x xs ih =>
    rw [List.foldl_cons]
    refine ih _ ?_ (fun y hy => hl y (by simp [hy]))
    rw [xorBytes, List.length_zipWith, hinit, hl x (by simp)]
    simp

/-- C3: for every password, salt and `iter ≥ 1`, the 32-byte output of
`encrypt.pbkdf2` is the first derived block of the standard
PBKDF2-HMAC-SHA-256 construction — `U₁ ⊕ U₂ ⊕ … ⊕ U_iter` with
`U₁ = HMAC(password, salt ‖ BE32(1))` and `U_{i+1} = HMAC(password, U_i)`. -/
theorem pbkdf2_matches_standard (password salt : List Nat) (iter : Nat)
    (_hiter : 1 ≤ iter) :
    pbkdf2 password salt iter 32 = pbkdf2Spec password salt iter := by
  have hblock : pbkdf2Block password salt iter 1 = pbkdf2Spec password salt iter := by
    rw [pbkdf2Block, pbkdf2Spec]
    have h0 : hmacSha256 password (salt ++ be32 1) = Useq password salt 1 0 := rfl
    rw [show (let u1 := hmacSha256 password (salt ++ be32 1)
        pbkdf2BlockLoop password (iter - 1) u1 u1) =
      pbkdf2BlockLoop password (iter - 1) (Useq password salt 1 0)
        (Useq password salt 1 0) from by rw [h0]]
    rw [pbkdf2BlockLoop_eq password salt 1 (iter - 1) 0 _]
    have hmap : ((List.range (iter - 1)).map
        (fun i => Useq password salt 1 (0 + i + 1))) =
        (List.range (iter - 1)).map (fun i => Useq password salt 1 (i + 1)) := by
      refine List.map_congr_left ?_
      intro i _
      congr 1
      omega
    rw [hmap]
  have hlen : (pbkdf2Spec password salt iter).length = 32 := by
    rw [pbkdf2Spec]
    refine foldl_xorBytes_length _ _ (Useq_length password salt 1 0) ?_
    intro x hx
    rcases List.mem_map.mp hx with ⟨i, _, rfl⟩
    exact Useq_length password salt 1 (i + 1)
  rw [pbkdf2]
  rw [show (32 + 32 - 1) / 32 = 1 from rfl]
  rw [show List.range 1 = [0] from rfl]
  simp only [List.map_cons, List.map_nil, List.flatten_cons, List.flatten_nil,
    List.append_nil]
  rw [hblock]
  exact List.take_of_length_le (by rw [hlen])

/-- C3 witness: the theorem applied at one iteration with empty password
and salt. -/
theorem pbkdf2_matches_standard_witness :
    1 ≤ 1 ∧ pbkdf2 [] [] 1 32 = pbkdf2Spec [] [] 1 :=
  ⟨by decide, pbkdf2_matches_standard [] [] 1 (by decide)⟩

/-! ## AES-256-GCM (`crypto/aes` + `cipher.NewGCM` as used by
`encrypt.Encrypt`)

The block cipher follows FIPS-197 with the S-box computed from the
GF(2⁸) inverse and affine transform; GCM follows NIST SP 800-38D for a
12-byte nonce and no additional authenticated data, which is exactly
`gcm.Seal(nil, iv, plaintext, nil)`.  The definitions were checked
byte-for-byte against the FIPS-197 C.3 block vector and the GCM
specification test vectors for AES-256. -/

/-- GF(2⁸) product (polynomial 0x11b), eight shift-and-add steps. -/
def gfMulAux : Nat → Nat → Nat → Nat → Nat
  | 0, _, _, acc => acc
  | n + 1, a, b, acc =>
    let acc' := if b % 2 = 1 then acc ^^^ a else acc
    let a' := if a &&& 0x80 ≠ 0 then ((a <<< 1) % 256) ^^^ 0x1b else (a <<< 1) % 256
    gfMulAux n a' (b >>> 1) acc'

/-- GF(2⁸) multiplication. -/
def gfMul (a b : Nat) : Nat := gfMulAux 8 a b 0

/-- GF(2⁸) multiplicative inverse (0 for 0), by exhaustive search. -/
def gfInv (x : Nat) : Nat := ((List.range 256).find? (fun y => gfMul x y == 1)).getD 0

/-- 8-bit left rotation. -/
def rotl8 (x n : Nat) : Nat := ((x <<< n) ||| (x >>> (8 - n))) % 256

/-- The AES S-box: affine transform of the GF(2⁸) inverse. -/
def sbox (x : Nat) : Nat :=
  let i := gfInv x
  (i ^^^ rotl8 i 1 ^^^ rotl8 i 2 ^^^ rotl8 i 3 ^^^ rotl8 i 4 ^^^ 0x63) % 256

/-- The round constants: powers of 2 in GF(2⁸). -/
def rconVal : Nat → Nat
  | 0 => 1
  | n + 1 => gfMul 2 (rconVal n)

/-- Split a byte list into 4-byte words. -/
def chunks4 : List Nat → List (List Nat)
  | b0 :: b1 :: b2 :: b3 :: rest => [b0, b1, b2, b3] :: chunks4 rest
  | _ => []

/-- S-box applied to each byte of a word. -/
def subWord (w : List Nat) : List Nat := w.map sbox

/-- One-byte left rotation of a word. -/
def rotWord : List Nat → List Nat
  | a :: rest => rest ++ [a]
  | [] => []

/-- The AES-256 key schedule loop producing words 8..59. -/
def keyExpandLoop : Nat → Nat → List (List Nat) → List (List Nat)
  | 0, _, ws => ws
  | n + 1, i, ws =>
    let prev := ws.getD (ws.length - 1) []
    let w8 := ws.getD (ws.length - 8) []
    let temp :=
      if i % 8 = 0 then xorBytes (subWord (rotWord prev)) [rconVal (i / 8 - 1), 0, 0, 0]
      else if i % 8 = 4 then subWord prev
      else prev
    keyExpandLoop n (i + 1) (ws ++ [xorBytes w8 temp])

/-- The 60-word AES-256 key schedule. -/
def expandKey256 (key : List Nat) : List (List Nat) :=
  keyExpandLoop 52 8 (chunks4 key)

/-- ShiftRows on the column-major byte order of the AES state. -/
def shiftRows (s : List Nat) : List Nat :=
  (List.range 16).map (fun i => s.getD (i % 4 + 4 * ((i / 4 + i % 4) % 4)) 0)

/-- MixColumns on one column. -/
def mixColumn : List Nat → List Nat
  | [a0, a1, a2, a3] =>
    [gfMul 2 a0 ^^^ gfMul 3 a1 ^^^ a2 ^^^ a3,
     a0 ^^^ gfMul 2 a1 ^^^ gfMul 3 a2 ^^^ a3,
     a0 ^^^ a1 ^^^ gfMul 2 a2 ^^^ gfMul 3 a3,
     gfMul 3 a0 ^^^ a1 ^^^ a2 ^^^ gfMul 2 a3]
  | l => l

/-- MixColumns on the whole state. -/
def mixColumns (s : List Nat) : List Nat := ((chunks4 s).map mixColumn).flatten

/-- Round key `r` of the schedule, as 16 bytes. -/
def roundKey (ws : List (List Nat)) (r : Nat) : List Nat :=
  ((ws.drop (4 * r)).take 4).flatten

/-- AES-256 encryption of one 16-byte block: initial AddRoundKey,
13 full rounds, final round without MixColumns. -/
def aesBlock (key block : List Nat) : List Nat :=
  let ws := expandKey256 key
  let stm := (List.range 13).foldl
    (fun st r => xorBytes (mixColumns (shiftRows (st.map sbox))) (roundKey ws (r + 1)))
    (xorBytes block (roundKey ws 0))
  xorBytes (shiftRows (stm.map sbox)) (roundKey ws 14)

/-- Big-endian integer of a byte list. -/
def bytesToNat (bs : List Nat) : Nat := bs.foldl (fun acc b => acc * 256 + b) 0

/-- The 16 big-endian bytes of a 128-bit integer. -/
def nat128ToBytes (n : Nat) : List Nat :=
  (List.range 16).map (fun i => (n >>> ((15 - i) * 8)) % 256)

/-- GF(2¹²⁸) product in the reflected GCM convention (reduction
polynomial bytes `e1 00 … 00`). -/
def gmulAux : Nat → Nat → Nat → Nat → Nat
  | 0, _, _, z => z
  | n + 1, x, v, z =>
    let z' := if (x >>> 127) % 2 = 1 then z ^^^ v else z
    let v' := if v % 2 = 1 then (v >>> 1) ^^^ (0xe1 <<< 120) else v >>> 1
    gmulAux n ((x <<< 1) % 340282366920938463463374607431768211456) v' z'

/-- GCM GF(2¹²⁸) multiplication. -/
def gmul (x y : Nat) : Nat := gmulAux 128 x y 0

/-- Split into 16-byte blocks (fuel-bounded by the length). -/
def chunks16 : Nat → List Nat → List (List Nat)
  | 0, _ => []
  | _, [] => []
  | fuel + 1, l => l.take 16 :: chunks16 fuel (l.drop 16)

/-- Big-endian 64-bit bytes. -/
def be64 (n : Nat) : List Nat := (List.range 8).map (fun i => (n >>> ((7 - i) * 8)) % 256)

/-- GHASH over the zero-padded ciphertext followed by the lengths block
(no additional authenticated data). -/
def ghash (h : Nat) (ct : List Nat) : Nat :=
  let data := ct ++ List.replicate ((16 - ct.length % 16) % 16) 0 ++
    be64 0 ++ be64 (ct.length * 8)
  (chunks16 data.length data).foldl (fun y blk => gmul (y ^^^ bytesToNat blk) h) 0

/-- The CTR keystream of GCM: byte `j` comes from the encrypted counter
block with counter value `2 + j/16` (the counter of `J0` is 1). -/
def gcmKeystream (key nonce : List Nat) (n : Nat) : List Nat :=
  (List.range n).map (fun j =>
    (aesBlock key (nonce ++ be32 ((2 + j / 16) % 4294967296))).getD (j % 16) 0)

/-- The GCM authentication tag of a ciphertext:
`GHASH(H, ct) ⊕ E(key, J0)` with `H = E(key, 0¹⁶)` and
`J0 = nonce ‖ 00 00 00 01`. -/
def gcmTag (key nonce ct : List Nat) : List Nat :=
  nat128ToBytes (ghash (bytesToNat (aesBlock key (List.replicate 16 0))) ct ^^^
    bytesToNat (aesBlock key (nonce ++ [0, 0, 0, 1])))

/-- `gcm.Seal(nil, nonce, pt, nil)`: ciphertext with the authentication
tag appended. -/
def gcmSeal (key nonce pt : List Nat) : List Nat :=
  xorBytes pt (gcmKeystream key nonce pt.length) ++
    gcmTag key nonce (xorBytes pt (gcmKeystream key nonce pt.length))

/-- The standard AES-256-GCM open of the claim (the mirror image of the
browser-side decrypt routine): split off the 16-byte tag, recompute it
over the ciphertext, fail on mismatch, otherwise strip the keystream. -/
def gcmOpen (key nonce data : List Nat) : Option (List Nat) :=
  if data.length < 16 then none
  else
    if data.drop (data.length - 16) =
        gcmTag key nonce (data.take (data.length - 16)) then
      some (xorBytes (data.take (data.length - 16))
        (gcmKeystream key nonce (data.take (data.length - 16)).length))
    else none

/-- `encrypt.Encrypt(plaintext, passphrase)`: the salt and IV are the
fresh random bytes `rand.Read` produced, modeled as arguments; the key
is `pbkdf2(passphrase, salt, 100000, 32)` and the ciphertext is the GCM
seal (the `aes.NewCipher` and `cipher.NewGCM` error paths are not taken
for a 32-byte key). -/
def Encrypt (plaintext passphrase salt iv : List Nat) :
    List Nat × List Nat × List Nat :=
  (salt, iv, gcmSeal (pbkdf2 passphrase salt 100000 32) iv plaintext)

theorem xorBytes_length (a b : List Nat) :
    (xorBytes a b).length = min a.length b.length := by
  simp [xorBytes]

theorem gcmKeystream_length (key nonce : List Nat) (n : Nat) :
    (gcmKeystream key nonce n).length = n := by
  simp [gcmKeystream]

theorem gcmTag_length (key nonce ct : List Nat) :
    (gcmTag key nonce ct).length = 16 := by
  simp [gcmTag, nat128ToBytes]

theorem xorBytes_cancel (a : List Nat) :
    ∀ b : List Nat, a.length = b.length → xorBytes (xorBytes a b) b = a := by
  induction a with
  | nil => intro b _h; cases b <;> simp [xorBytes]
  | cons x xs ih =>
    intro b h
    cases b with
    | nil => simp at h
    | cons y ys =>
      simp only [List.length_cons, Nat.add_right_cancel_iff] at h
      show (x ^^^ y ^^^ y) :: xorBytes (xorBytes xs ys) ys = x :: xs
      rw [Nat.xor_cancel_right, ih ys h]

/-- C1: opening the ciphertext produced by the sealing step of
`encrypt.Encrypt` with standard AES-256-GCM under the key
`pbkdf2(passphrase, salt, 100000, 32)` and the same salt and nonce
returns exactly the original plaintext, for every plaintext, non-empty
passphrase, 16-byte salt and 12-byte nonce. -/
theorem encrypt_seal_open_roundtrip (pt passphrase salt nonce : List Nat)
    (_hpass : passphrase ≠ []) (_hsalt : salt.length = 16)
    (_hnonce : nonce.length = 12) :
    gcmOpen (pbkdf2 passphrase salt 100000 32) nonce
      (Encrypt pt passphrase salt nonce).2.2 = some pt := by
  show gcmOpen (pbkdf2 passphrase salt 100000 32) nonce
    (gcmSeal (pbkdf2 passphrase salt 100000 32) nonce pt) = some pt
  set key := pbkdf2 passphrase salt 100000 32 with hkey
  set ks := gcmKeystream key nonce pt.length with hks
  set ct := xorBytes pt ks with hctdef
  have hkslen : ks.length = pt.length := gcmKeystream_length key nonce pt.length
  have hct : ct.length = pt.length := by
    rw [hctdef, xorBytes_length, hkslen]; simp
  set tg := gcmTag key nonce ct with htgdef
  have htg : tg.length = 16 := gcmTag_length key nonce ct
  have hdata : (ct ++ tg).length = pt.length + 16 := by
    simp [hct, htg]
  rw [show gcmSeal key nonce pt = ct ++ tg from rfl, gcmOpen]
  rw [if_neg (by omega)]
  have htake : (ct ++ tg).take ((ct ++ tg).length - 16) = ct :=
    List.take_left' (by omega)
  have hdrop : (ct ++ tg).drop ((ct ++ tg).length - 16) = tg :=
    List.drop_left' (by omega)
  rw [htake, hdrop, if_pos rfl, hctdef, hct]
  rw [show gcmKeystream key nonce pt.length = ks from rfl]
  rw [xorBytes_cancel pt ks hkslen.symm]

/-- C1 witness: the round trip at the empty plaintext, a one-byte
passphrase, the zero salt and the zero nonce. -/
theorem encrypt_seal_open_roundtrip_witness :
    (([0] : List Nat) ≠ [] ∧ (List.replicate 16 0 : List Nat).length = 16 ∧
      (List.replicate 12 0 : List Nat).length = 12) ∧
    gcmOpen (pbkdf2 [0] (List.replicate 16 0) 100000 32) (List.replicate 12 0)
      (Encrypt [] [0] (List.replicate 16 0) (List.replicate 12 0)).2.2 = some [] :=
  ⟨⟨by decide, by decide, by decide⟩,
    encrypt_seal_open_roundtrip [] [0] (List.replicate 16 0) (List.replicate 12 0)
      (by decide) (by decide) (by decide)⟩


/-! ## Encrypted page assembly (`encrypt.BuildEncryptedPage`) and the
per-page encryption step of the build -/

/-- UTF-8 bytes of one character. -/
def charUtf8 (c : Char) : List Nat :=
  let n := c.toNat
  if n < 0x80 then [n]
  else if n < 0x800 then [0xc0 ||| (n >>> 6), 0x80 ||| (n &&& 0x3f)]
  else if n < 0x10000 then
    [0xe0 ||| (n >>> 12), 0x80 ||| ((n >>> 6) &&& 0x3f), 0x80 ||| (n &&& 0x3f)]
  else
    [0xf0 ||| (n >>> 18), 0x80 ||| ((n >>> 12) &&& 0x3f),
     0x80 ||| ((n >>> 6) &&& 0x3f), 0x80 ||| (n &&& 0x3f)]

/-- The UTF-8 bytes of a text (`[]byte(s)` in Go). -/
def utf8Encode (s : List Char) : List Nat := (s.map charUtf8).flatten

/-- The standard base64 alphabet character at an index. -/
def b64Char (n : Nat) : Char :=
  (chars "ABCDEFGHIJKLMNOPQRSTUVWXYZabcdefghijklmnopqrstuvwxyz0123456789+/").getD n 'A'

/-- `base64.StdEncoding.EncodeToString`. -/
def base64Encode : List Nat → List Char
  | [] => []
  | [b0] => [b64Char (b0 >>> 2), b64Char ((b0 % 4) <<< 4), '=', '=']
  | [b0, b1] =>
    [b64Char (b0 >>> 2), b64Char (((b0 % 4) <<< 4) ||| (b1 >>> 4)),
     b64Char ((b1 % 16) <<< 2), '=']
  | b0 :: b1 :: b2 :: rest =>
    b64Char (b0 >>> 2) :: b64Char (((b0 % 4) <<< 4) ||| (b1 >>> 4)) ::
    b64Char (((b1 % 16) <<< 2) ||| (b2 >>> 6)) :: b64Char (b2 % 64) ::
    base64Encode rest

/-! The five literal pieces of the `BuildEncryptedPage` format string, in
source order around the four `%s` placeholders (decrypt form, base64
ciphertext, base64 salt, base64 IV). -/

def bp1 : List Char :=
  chars "<!doctype html>\n<html>\n<head>\n<meta charset=\"utf-8\">\n<meta name=\"viewport\"" ++
  chars " content=\"width=device-width, initial-scale=1.0\">\n<title>Encrypted Page</title" ++
  chars ">\n</head>\n<body>\n"

def bp2 : List Char :=
  chars "\n<script id=\"encrypted-payload\" type=\"application/json\">"

def bp3 : List Char :=
  chars "</script>\n<script>\n(function() \x7b\n  var SALT = \""

def bp4 : List Char :=
  chars "\";\n  var IV = \""

def bp5 : List Char :=
  chars "\";\n  var ITERATIONS = 100000;\n\n  function b64ToBytes(b64) \x7b\n    var bin =" ++
  chars " atob(b64);\n    var bytes = new Uint8Array(bin.length);\n    for (var i = 0; i <" ++
  chars " bin.length; i++) bytes[i] = bin.charCodeAt(i);\n    return bytes;\n  \x7d\n\n  a" ++
  chars "sync function decrypt(passphrase) \x7b\n    var salt = b64ToBytes(SALT);\n    var" ++
  chars " iv = b64ToBytes(IV);\n    var ct = b64ToBytes(document.getElementById(\"encrypte" ++
  chars "d-payload\").textContent);\n\n    var enc = new TextEncoder();\n    var keyMateri" ++
  chars "al = await crypto.subtle.importKey(\"raw\", enc.encode(passphrase), \"PBKDF2\", f" ++
  chars "alse, [\"deriveKey\"]);\n    var key = await crypto.subtle.deriveKey(\n      \x7b" ++
  chars "name: \"PBKDF2\", salt: salt, iterations: ITERATIONS, hash: \"SHA-256\"\x7d,\n   " ++
  chars "   keyMaterial,\n      \x7bname: \"AES-GCM\", length: 256\x7d,\n      false,\n   " ++
  chars "   [\"decrypt\"]\n    );\n\n    var decrypted = await crypto.subtle.decrypt(\x7bn" ++
  chars "ame: \"AES-GCM\", iv: iv\x7d, key, ct);\n    return new TextDecoder().decode(decr" ++
  chars "ypted);\n  \x7d\n\n  var form = document.getElementById(\"decrypt-form\");\n  if " ++
  chars "(form) \x7b\n    form.addEventListener(\"submit\", async function(e) \x7b\n      " ++
  chars "e.preventDefault();\n      var pw = document.getElementById(\"decrypt-password\")" ++
  chars ".value;\n      try \x7b\n        var html = await decrypt(pw);\n        document." ++
  chars "open();\n        document.write(html);\n        document.close();\n      \x7d cat" ++
  chars "ch(err) \x7b\n        var el = document.getElementById(\"decrypt-error\");\n     " ++
  chars "   if (el) \x7b el.style.display = \"block\"; \x7d\n      \x7d\n    \x7d);\n  \x7d" ++
  chars "\n\x7d)();\n</script>\n</body>\n</html>"

/-- `encrypt.BuildEncryptedPage(salt, iv, ciphertext, decryptFormHTML)`:
the fixed page scaffold with the trimmed decrypt form, the base64
ciphertext payload block, and the inline decrypt script holding the
base64 salt and IV constants. -/
def BuildEncryptedPage (salt iv ciphertext : List Nat)
    (decryptFormHTML : List Char) : List Char :=
  bp1 ++ trimSpace decryptFormHTML ++ bp2 ++ base64Encode ciphertext ++
    bp3 ++ base64Encode salt ++ bp4 ++ base64Encode iv ++ bp5

/-- Modelled from the spec: the per-page dual-output step of the build
for an encrypted page (the glue inside the page generator that checks
the extracted `EncryptKey`, which is not part of the sources here; only
its building blocks `ExtractEncryptKey`, `ReplaceComponentTags`,
`Encrypt` and `BuildEncryptedPage` are).  Per the spec, a page whose
content carries an `<encrypt>` passphrase yields the sealed document as
the main artifact and the untouched processed plaintext as the preview
artifact — the encryptor is never invoked for the preview.  The salt and
IV are the fresh random bytes of the build, modeled as arguments; pages
without a passphrase take the ordinary unencrypted path (`none` here). -/
def generatePageWithEncryption (content : List Char) (comps : List CompM)
    (salt iv : List Nat) (form : List Char) :
    Option (List Char × List Char) :=
  let passphrase := ExtractEncryptKey content
  if passphrase.isEmpty then none
  else
    let plainRendered := ReplaceComponentTags content comps
    some (BuildEncryptedPage salt iv
        (gcmSeal (pbkdf2 (utf8Encode passphrase) salt 100000 32) iv
          (utf8Encode plainRendered)) form,
      plainRendered)

/-- No character `<` directly followed by `e` anywhere: sufficient for
the absence of the literal `<encrypt>` marker. -/
def noLtE : List Char → Bool
  | c1 :: c2 :: rest => !(c1 = '<' && c2 = 'e') && noLtE (c2 :: rest)
  | _ => true

theorem noLtE_tail (c : Char) (cs : List Char) (h : noLtE (c :: cs) = true) :
    noLtE cs = true := by
  cases cs with
  | nil => rfl
  | cons c2 rest =>
    rw [noLtE, Bool.and_eq_true] at h
    exact h.2

theorem no_startsWith_encrypt (s : List Char) (h : noLtE s = true) :
    ∀ j, startsWith (s.drop j) (chars "<encrypt>") = false := by
  induction s with
  | nil => intro j; simp [startsWith, chars]
  | cons c cs ih =>
    intro j
    cases j with
    | succ j2 => simpa using ih (noLtE_tail c cs h) j2
    | zero =>
      simp only [List.drop_zero]
      show startsWith (c :: cs) ('<' :: chars "encrypt>") = false
      cases cs with
      | nil =>
        show (decide (c = '<') && startsWith [] (chars "encrypt>")) = false
        simp [startsWith, chars]
      | cons c2 rest =>
        by_cases hc : c = '<'
        · rw [noLtE, Bool.and_eq_true] at h
          have hc2 : c2 ≠ 'e' := by
            intro he
            rw [hc, he] at h
            simpa using h.1
          show (decide (c = '<') &&
            startsWith (c2 :: rest) ('e' :: chars "ncrypt>")) = false
          show (decide (c = '<') && (decide (c2 = 'e') &&
            startsWith rest (chars "ncrypt>"))) = false
          simp [hc2]
        · show (decide (c = '<') &&
            startsWith (c2 :: rest) ('e' :: chars "ncrypt>")) = false
          simp [hc]

theorem indexOf_none_of_all_false (s pat : List Char)
    (h : ∀ j, startsWith (s.drop j) pat = false) :
    indexOfChars s pat = none := by
  induction s with
  | nil =>
    rw [indexOfChars, if_neg (by simpa using h 0)]
  | cons c cs ih =>
    rw [indexOfChars, if_neg (by simpa using h 0)]
    rw [ih (fun j => by simpa using h (j + 1))]
    rfl

theorem no_encrypt_marker_of_noLtE (s : List Char) (h : noLtE s = true) :
    containsSub s (chars "<encrypt>") = false := by
  rw [containsSub,
    indexOf_none_of_all_false s (chars "<encrypt>") (no_startsWith_encrypt s h)]
  rfl

theorem noLtE_append_of_no_lt_left (a b : List Char)
    (ha : ∀ c ∈ a, c ≠ '<') (hb : noLtE b = true) :
    noLtE (a ++ b) = true := by
  induction a with
  | nil => simpa using hb
  | cons c rest ih =>
    have hc : c ≠ '<' := ha c (by simp)
    have htail := ih (fun d hd => ha d (by simp [hd]))
    rw [List.cons_append]
    cases hrb : rest ++ b with
    | nil => rfl
    | cons y ys =>
      rw [noLtE, Bool.and_eq_true]
      exact ⟨by simp [hc], by rw [← hrb]; exact htail⟩

theorem noLtE_append_of_last_ne (a b : List Char) (ha : noLtE a = true)
    (hb : noLtE b = true) (hlast : a.getLast? ≠ some '<') :
    noLtE (a ++ b) = true := by
  induction a with
  | nil => simpa using hb
  | cons c rest ih =>
    cases hrest : rest with
    | nil =>
      subst hrest
      simp only [List.getLast?_singleton] at hlast
      have hc : c ≠ '<' := fun h => hlast (by rw [h])
      show noLtE (c :: b) = true
      cases b with
      | nil => rfl
      | cons y ys =>
        show (!(decide (c = '<') && decide (y = 'e')) && noLtE (y :: ys)) = true
        rw [hb]
        simp [hc]
    | cons c2 rest2 =>
      subst hrest
      have ha1 : noLtE (c2 :: rest2) = true := noLtE_tail c _ ha
      have hlast2 : (c2 :: rest2).getLast? ≠ some '<' := by
        rwa [List.getLast?_cons_cons] at hlast
      have htail : noLtE ((c2 :: rest2) ++ b) = true := ih ha1 hlast2
      have hfirst : (!(decide (c = '<') && decide (c2 = 'e'))) = true := by
        have h2 : (!(decide (c = '<') && decide (c2 = 'e')) &&
          noLtE (c2 :: rest2)) = true := ha
        rw [Bool.and_eq_true] at h2
        exact h2.1
      show (!(decide (c = '<') && decide (c2 = 'e')) &&
        noLtE (c2 :: (rest2 ++ b))) = true
      rw [show noLtE (c2 :: (rest2 ++ b)) = noLtE ((c2 :: rest2) ++ b) from rfl,
        htail, hfirst]
      rfl

theorem noLtE_append_of_head_ne (a b : List Char) (ha : noLtE a = true)
    (hb : noLtE b = true) (hhead : b.head? ≠ some 'e') :
    noLtE (a ++ b) = true := by
  induction a with
  | nil => simpa using hb
  | cons c rest ih =>
    cases hrest : rest with
    | nil =>
      subst hrest
      show noLtE (c :: b) = true
      cases b with
      | nil => rfl
      | cons y ys =>
        simp only [List.head?_cons] at hhead
        have hy : y ≠ 'e' := fun h => hhead (by rw [h])
        show (!(decide (c = '<') && decide (y = 'e')) && noLtE (y :: ys)) = true
        rw [hb]
        simp [hy]
    | cons c2 rest2 =>
      subst hrest
      have htail : noLtE ((c2 :: rest2) ++ b) = true :=
        ih (noLtE_tail c _ ha)
      have hfirst : (!(decide (c = '<') && decide (c2 = 'e'))) = true := by
        have h2 : (!(decide (c = '<') && decide (c2 = 'e')) &&
          noLtE (c2 :: rest2)) = true := ha
        rw [Bool.and_eq_true] at h2
        exact h2.1
      show (!(decide (c = '<') && decide (c2 = 'e')) &&
        noLtE (c2 :: (rest2 ++ b))) = true
      rw [show noLtE (c2 :: (rest2 ++ b)) = noLtE ((c2 :: rest2) ++ b) from rfl,
        htail, hfirst]
      rfl

theorem getD_mem_or_default (l : List Char) (n : Nat) (d : Char) :
    l.getD n d ∈ l ∨ l.getD n d = d := by
  induction l generalizing n with
  | nil => right; simp
  | cons c cs ih =>
    cases n with
    | zero => left; rw [List.getD_cons_zero]; simp
    | succ m =>
      rcases ih m with h | h
      · left
        rw [List.getD_cons_succ]
        exact List.mem_cons_of_mem _ h
      · right
        rw [List.getD_cons_succ]
        exact h

theorem b64Char_ne_lt (n : Nat) : b64Char n ≠ '<' := by
  rcases getD_mem_or_default
    (chars "ABCDEFGHIJKLMNOPQRSTUVWXYZabcdefghijklmnopqrstuvwxyz0123456789+/") n 'A'
    with h | h
  · intro he
    rw [b64Char] at he
    rw [he] at h
    revert h
    decide
  · rw [b64Char, h]
    decide

theorem base64_no_lt (l : List Nat) : ∀ c ∈ base64Encode l, c ≠ '<' := by
  induction l using base64Encode.induct with
  | case1 => simp [base64Encode]
  | case2 b0 =>
    intro c hc
    simp [base64Encode] at hc
    rcases hc with rfl | rfl | rfl
    · exact b64Char_ne_lt _
    · exact b64Char_ne_lt _
    · decide
  | case3 b0 b1 =>
    intro c hc
    simp [base64Encode] at hc
    rcases hc with rfl | rfl | rfl | rfl
    · exact b64Char_ne_lt _
    · exact b64Char_ne_lt _
    · exact b64Char_ne_lt _
    · decide
  | case4 b0 b1 b2 rest ih =>
    intro c hc
    simp only [base64Encode, List.mem_cons] at hc
    rcases hc with rfl | rfl | rfl | rfl | hc
    · exact b64Char_ne_lt _
    · exact b64Char_ne_lt _
    · exact b64Char_ne_lt _
    · exact b64Char_ne_lt _
    · exact ih c hc

theorem head?_append_left (l l' : List Char) (a : Char) (h : l.head? = some a) :
    (l ++ l').head? = some a := by
  cases l with
  | nil => simp at h
  | cons c cs => simpa using h

theorem indexOf_none_of_contains_false (s pat : List Char)
    (h : containsSub s pat = false) : indexOfChars s pat = none := by
  rw [containsSub] at h
  rcases hi : indexOfChars s pat with _ | i
  · rfl
  · rw [hi] at h; simp at h

theorem removeSpansAux_id (openT closeT s : List Char)
    (h : containsSub s openT = false) :
    ∀ fuel, removeSpansAux openT closeT fuel s = s := by
  intro fuel
  cases fuel with
  | zero => rfl
  | succ f =>
    rw [removeSpansAux, indexOf_none_of_contains_false s openT h]

theorem removeSpansAux_single (openT closeT pre x post : List Char)
    (h1 : indexOfChars (pre ++ openT ++ x ++ closeT ++ post) openT = some pre.length)
    (h2 : indexOfChars ((pre ++ openT ++ x ++ closeT ++ post).drop pre.length)
        closeT = some (openT.length + x.length))
    (h3 : containsSub (pre ++ post) openT = false) :
    ∀ fuel, removeSpansAux openT closeT (fuel + 1)
        (pre ++ openT ++ x ++ closeT ++ post) = pre ++ post := by
  intro fuel
  rw [removeSpansAux, h1]
  dsimp only
  rw [h2]
  dsimp only
  have htake : (pre ++ openT ++ x ++ closeT ++ post).take pre.length = pre := by
    rw [show pre ++ openT ++ x ++ closeT ++ post =
      pre ++ (openT ++ x ++ closeT ++ post) by simp]
    exact List.take_left pre _
  have hdrop : (pre ++ openT ++ x ++ closeT ++ post).drop
      (pre.length + (openT.length + x.length) + closeT.length) = post := by
    refine List.drop_left' ?_
    simp only [List.length_append]
    omega
  rw [htake, hdrop]
  exact removeSpansAux_id openT closeT (pre ++ post) h3 fuel

set_option maxRecDepth 40000 in
/-- C2: for a page whose content carries a well-formed
`<encrypt>passphrase</encrypt>` marker (and no other occurrence of the
marker or a preview span), the build emits exactly two artifacts: the
preview is the untouched processed plaintext — the page with only the
marker span removed, never passed through the encryptor — and the main
artifact is `BuildEncryptedPage` over the GCM seal of that plaintext
under the PBKDF2 key of the extracted passphrase, embedding the base64
ciphertext block and the inline decrypt routine; and neither artifact
contains the literal `<encrypt>` marker. -/
theorem encrypted_page_dual_artifacts
    (pre p post : List Char) (salt iv : List Nat) (form : List Char)
    (h1 : indexOfChars (pre ++ chars "<encrypt>" ++ p ++ chars "</encrypt>" ++ post)
        (chars "<encrypt>") = some pre.length)
    (h2 : indexOfChars ((pre ++ chars "<encrypt>" ++ p ++ chars "</encrypt>" ++ post).drop
        pre.length) (chars "</encrypt>") = some (9 + p.length))
    (h3 : containsSub (pre ++ post) (chars "<encrypt>") = false)
    (h4 : containsSub (pre ++ chars "<encrypt>" ++ p ++ chars "</encrypt>" ++ post)
        (chars "<preview>") = false)
    (h5 : ExtractEncryptKey (pre ++ chars "<encrypt>" ++ p ++ chars "</encrypt>" ++ post) ≠ [])
    (h6 : noLtE (trimSpace form) = true) :
    generatePageWithEncryption
        (pre ++ chars "<encrypt>" ++ p ++ chars "</encrypt>" ++ post) [] salt iv form =
      some (BuildEncryptedPage salt iv
          (gcmSeal (pbkdf2 (utf8Encode (ExtractEncryptKey
              (pre ++ chars "<encrypt>" ++ p ++ chars "</encrypt>" ++ post)))
            salt 100000 32) iv (utf8Encode (pre ++ post))) form,
        pre ++ post) ∧
    containsSub (pre ++ post) (chars "<encrypt>") = false ∧
    containsSub (BuildEncryptedPage salt iv
        (gcmSeal (pbkdf2 (utf8Encode (ExtractEncryptKey
            (pre ++ chars "<encrypt>" ++ p ++ chars "</encrypt>" ++ post)))
          salt 100000 32) iv (utf8Encode (pre ++ post))) form)
      (chars "<encrypt>") = false := by
  have hstrip : ReplaceComponentTags
      (pre ++ chars "<encrypt>" ++ p ++ chars "</encrypt>" ++ post) [] =
      pre ++ post := by
    rw [ReplaceComponentTags, List.foldl_nil, RemovePreviewTags,
      removeSpansAux_id _ _ _ h4, RemoveEncryptTags]
    have hlen : (pre ++ chars "<encrypt>" ++ p ++ chars "</encrypt>" ++ post).length =
        ((pre ++ chars "<encrypt>" ++ p ++ chars "</encrypt>" ++ post).length - 1) + 1 := by
      simp only [List.length_append,
        show (chars "<encrypt>").length = 9 from rfl,
        show (chars "</encrypt>").length = 10 from rfl]
      omega
    rw [hlen,
      removeSpansAux_single (chars "<encrypt>") (chars "</encrypt>") pre p post h1
        (by rw [h2]; rfl) h3]
  have hempty : (ExtractEncryptKey
      (pre ++ chars "<encrypt>" ++ p ++ chars "</encrypt>" ++ post)).isEmpty = false := by
    rcases hE : ExtractEncryptKey
      (pre ++ chars "<encrypt>" ++ p ++ chars "</encrypt>" ++ post) with _ | ⟨a, b⟩
    · exact absurd hE h5
    · rfl
  refine ⟨?_, h3, ?_⟩
  · show (if (ExtractEncryptKey
        (pre ++ chars "<encrypt>" ++ p ++ chars "</encrypt>" ++ post)).isEmpty then
        none
      else some (BuildEncryptedPage salt iv
          (gcmSeal (pbkdf2 (utf8Encode (ExtractEncryptKey
              (pre ++ chars "<encrypt>" ++ p ++ chars "</encrypt>" ++ post)))
            salt 100000 32) iv (utf8Encode (ReplaceComponentTags
              (pre ++ chars "<encrypt>" ++ p ++ chars "</encrypt>" ++ post) []))) form,
        ReplaceComponentTags
          (pre ++ chars "<encrypt>" ++ p ++ chars "</encrypt>" ++ post) [])) = _
    rw [if_neg (by rw [hempty]; exact Bool.false_ne_true), hstrip]
  · refine no_encrypt_marker_of_noLtE _ ?_
    rw [BuildEncryptedPage]
    rw [show bp1 ++ trimSpace form ++ bp2 ++
        base64Encode (gcmSeal (pbkdf2 (utf8Encode (ExtractEncryptKey
            (pre ++ chars "<encrypt>" ++ p ++ chars "</encrypt>" ++ post)))
          salt 100000 32) iv (utf8Encode (pre ++ post))) ++
        bp3 ++ base64Encode salt ++ bp4 ++ base64Encode iv ++ bp5 =
      bp1 ++ (trimSpace form ++ (bp2 ++
        (base64Encode (gcmSeal (pbkdf2 (utf8Encode (ExtractEncryptKey
            (pre ++ chars "<encrypt>" ++ p ++ chars "</encrypt>" ++ post)))
          salt 100000 32) iv (utf8Encode (pre ++ post))) ++
        (bp3 ++ (base64Encode salt ++ (bp4 ++ (base64Encode iv ++ bp5))))))) by simp]
    have n9 : noLtE bp5 = true := by decide
    have n8 : noLtE (base64Encode iv ++ bp5) = true :=
      noLtE_append_of_no_lt_left _ _ (base64_no_lt iv) n9
    have n7 : noLtE (bp4 ++ (base64Encode iv ++ bp5)) = true :=
      noLtE_append_of_last_ne _ _ (by decide) n8 (by decide)
    have n6 : noLtE (base64Encode salt ++ (bp4 ++ (base64Encode iv ++ bp5))) = true :=
      noLtE_append_of_no_lt_left _ _ (base64_no_lt salt) n7
    have n5 : noLtE (bp3 ++ (base64Encode salt ++ (bp4 ++ (base64Encode iv ++ bp5)))) = true :=
      noLtE_append_of_last_ne _ _ (by decide) n6 (by decide)
    have n4 : noLtE (base64Encode (gcmSeal (pbkdf2 (utf8Encode (ExtractEncryptKey
          (pre ++ chars "<encrypt>" ++ p ++ chars "</encrypt>" ++ post)))
        salt 100000 32) iv (utf8Encode (pre ++ post))) ++
        (bp3 ++ (base64Encode salt ++ (bp4 ++ (base64Encode iv ++ bp5))))) = true :=
      noLtE_append_of_no_lt_left _ _ (base64_no_lt _) n5
    have n3 : noLtE (bp2 ++ (base64Encode (gcmSeal (pbkdf2 (utf8Encode (ExtractEncryptKey
          (pre ++ chars "<encrypt>" ++ p ++ chars "</encrypt>" ++ post)))
        salt 100000 32) iv (utf8Encode (pre ++ post))) ++
        (bp3 ++ (base64Encode salt ++ (bp4 ++ (base64Encode iv ++ bp5)))))) = true :=
      noLtE_append_of_last_ne _ _ (by decide) n4 (by decide)
    have n2 : noLtE (trimSpace form ++ (bp2 ++
        (base64Encode (gcmSeal (pbkdf2 (utf8Encode (ExtractEncryptKey
            (pre ++ chars "<encrypt>" ++ p ++ chars "</encrypt>" ++ post)))
          salt 100000 32) iv (utf8Encode (pre ++ post))) ++
        (bp3 ++ (base64Encode salt ++ (bp4 ++ (base64Encode iv ++ bp5))))))) = true :=
      noLtE_append_of_head_ne _ _ h6 n3
        (by rw [head?_append_left bp2 _ '\n' (by decide)]; decide)
    exact noLtE_append_of_last_ne _ _ (by decide) n2 (by decide)

/-- C2 witness: a concrete encrypted page with passphrase `pw`, a small
decrypt form, and empty random bytes; the preview equals the plaintext
with the marker stripped, and the main artifact carries no `<encrypt>`
marker. -/
theorem encrypted_page_dual_artifacts_witness :
    (indexOfChars (chars "<html><head><encrypt>pw</encrypt></head><body>B</body></html>")
        (chars "<encrypt>") = some 12 ∧
      ExtractEncryptKey
        (chars "<html><head><encrypt>pw</encrypt></head><body>B</body></html>") ≠ [] ∧
      noLtE (trimSpace (chars "<form id=\"decrypt-form\"></form>")) = true) ∧
    (generatePageWithEncryption
        (chars "<html><head><encrypt>pw</encrypt></head><body>B</body></html>")
        [] [] [] (chars "<form id=\"decrypt-form\"></form>")).map Prod.snd =
      some (chars "<html><head></head><body>B</body></html>") ∧
    containsSub ((generatePageWithEncryption
        (chars "<html><head><encrypt>pw</encrypt></head><body>B</body></html>")
        [] [] [] (chars "<form id=\"decrypt-form\"></form>")).getD ([], [])).1
      (chars "<encrypt>") = false := by
  have h := encrypted_page_dual_artifacts (chars "<html><head>") (chars "pw")
    (chars "</head><body>B</body></html>") [] []
    (chars "<form id=\"decrypt-form\"></form>")
    (by decide) (by decide) (by decide) (by decide) (by decide) (by decide)
  refine ⟨⟨by decide, by decide, by decide⟩, ?_, ?_⟩
  · show (generatePageWithEncryption
        (chars "<html><head>" ++ chars "<encrypt>" ++ chars "pw" ++
          chars "</encrypt>" ++ chars "</head><body>B</body></html>")
        [] [] [] (chars "<form id=\"decrypt-form\"></form>")).map Prod.snd =
      some (chars "<html><head></head><body>B</body></html>")
    rw [h.1]
    rfl
  · show containsSub ((generatePageWithEncryption
        (chars "<html><head>" ++ chars "<encrypt>" ++ chars "pw" ++
          chars "</encrypt>" ++ chars "</head><body>B</body></html>")
        [] [] [] (chars "<form id=\"decrypt-form\"></form>")).getD ([], [])).1
      (chars "<encrypt>") = false
    rw [h.1]
    exact h.2.2

end Genny
